import Mathlib

/-!
# Shallow embedding of the Synthesize flow-execution engine

This file embeds the core of the Synthesize task orchestrator
(`synthesize/config.py`, `synthesize/state.py`, `synthesize/orchestrator.py`,
`synthesize/execution.py`) as executable Lean definitions and proves
properties of the embedded engine.

Modelling conventions:
* Python dicts become insertion-ordered association lists
  (`List (String × α)`) with `List.lookup` for reads and `setKey` for writes.
* Python floats (only ever carried around, never computed with) become `Rat`.
* Python `KeyError`-raising lookups become `Except String α`, the error value
  being the missing key.
* The asyncio event loop becomes an explicit transition system: the
  orchestrator state carries its inbox as a queue, and environment events
  (subprocess exit, filesystem change, restart-timer fire, SIGINT) are steps
  of the system relation.
-/

namespace Synthesize

/-- Node status (`state.py`, `class Status`). -/
inductive Status where
  | Pending
  | Waiting
  | Starting
  | Running
  | Succeeded
  | Failed
deriving DecidableEq, Repr

/-- Triggers (`config.py`: `Once`, `After`, `Restart`, `Watch`).  The restart
delay is a Python float in the source; it is only ever stored and passed to
`call_later`, never computed with, so it is modelled as a rational. -/
inductive Trigger where
  | Once : Trigger
  | After (after : List String) : Trigger
  | Restart (delay : Rat) : Trigger
  | Watch (watch : List String) : Trigger
deriving DecidableEq, Repr

/-- Model of `RepeatingTrigger = Union[Restart, Watch]` (`config.py`). -/
def Trigger.isRepeating : Trigger → Bool
  | .Restart _ => true
  | .Watch _ => true
  | _ => false

/-- The `isinstance(t, (Once, After))` filter used by `ResolvedNode.once`. -/
def Trigger.isOnceOrAfter : Trigger → Bool
  | .Once => true
  | .After _ => true
  | _ => false

/-- The `isinstance(t, Watch)` test used by `start_watchers`. -/
def Trigger.isWatch : Trigger → Bool
  | .Watch _ => true
  | _ => false

/-- The first `Restart` trigger's delay, if any: models the
`for t in node.triggers: if isinstance(t, Restart): ... break` scan in
`Orchestrator.handle_messages`. -/
def firstRestartDelay (triggers : List Trigger) : Option Rat :=
  triggers.findSome? fun t =>
    match t with
    | .Restart d => some d
    | _ => none

/-- Model of `config.py`, `class Target`.  Template argument values are not
interpreted by the engine and are modelled as strings. -/
structure Target where
  commands : String
  args : List (String × String)
  envs : List (String × String)
  executable : String
deriving DecidableEq, Repr

/-- Model of `config.py`, `class ResolvedNode`. -/
structure ResolvedNode where
  id : String
  target : Target
  args : List (String × String)
  envs : List (String × String)
  triggers : List Trigger
  color : String
deriving DecidableEq, Repr

/-- Model of `config.py`, `ResolvedNode.once`: keep only `Once`/`After` triggers,
defaulting to `(Once(),)` when none remain (the Python
`existing_ok_triggers or (Once(),)` on an empty tuple), and rebuild the node
with all other fields unchanged. -/
def ResolvedNode.once (n : ResolvedNode) : ResolvedNode :=
  let existingOkTriggers := n.triggers.filter Trigger.isOnceOrAfter
  let triggers := if existingOkTriggers.isEmpty then [Trigger.Once] else existingOkTriggers
  { id := n.id
    target := n.target
    args := n.args
    envs := n.envs
    triggers := triggers
    color := n.color }

/-- Model of `config.py`, `class ResolvedFlow`.  The `nodes` dict is an
insertion-ordered association list from id to node. -/
structure ResolvedFlow where
  nodes : List (String × ResolvedNode)
  args : List (String × String)
  envs : List (String × String)
deriving DecidableEq, Repr

/-- Model of `config.py`, `ResolvedFlow.once`: apply `ResolvedNode.once` to every
node, keeping flow-level args and envs. -/
def ResolvedFlow.once (f : ResolvedFlow) : ResolvedFlow :=
  { nodes := f.nodes.map fun e => (e.1, e.2.once)
    args := f.args
    envs := f.envs }

/-! ## Association-list helpers (Python dict reads and writes) -/

/-- Python dict assignment `d[k] = v`: replace the value at an existing key in
place, else append the binding (dicts preserve insertion order). -/
def setKey {α : Type} : List (String × α) → String → α → List (String × α)
  | [], k, v => [(k, v)]
  | (k', v') :: t, k, v => if k' = k then (k, v) :: t else (k', v') :: setKey t k v

theorem lookup_setKey_self {α : Type} (m : List (String × α)) (k : String) (v : α) :
    List.lookup k (setKey m k v) = some v := by
  induction m with
  | nil => simp [setKey, List.lookup]
  | cons e t ih =>
    obtain ⟨k', v'⟩ := e
    by_cases h : k' = k
    · simp [setKey, h, List.lookup]
    · simp only [setKey, if_neg h, List.lookup]
      have : (k == k') = false := by
        simp [beq_iff_eq]
        exact fun hk => h hk.symm
      simp [this, ih]

theorem lookup_setKey_ne {α : Type} (m : List (String × α)) (k k' : String) (v : α)
    (h : k' ≠ k) : List.lookup k' (setKey m k v) = List.lookup k' m := by
  induction m with
  | nil =>
    simp only [setKey, List.lookup]
    have : (k' == k) = false := by simpa [beq_iff_eq] using h
    simp [this]
  | cons e t ih =>
    obtain ⟨k₀, v₀⟩ := e
    by_cases h₀ : k₀ = k
    · subst h₀
      have hne : (k' == k₀) = false := by simpa [beq_iff_eq] using h
      simp [setKey, List.lookup, hne]
    · simp only [setKey, if_neg h₀, List.lookup]
      by_cases h₁ : k' = k₀
      · subst h₁
        simp
      · have hne : (k' == k₀) = false := by simpa [beq_iff_eq] using h₁
        simp [hne, ih]

theorem lookup_map_snd {α β : Type} (l : List (String × α)) (g : α → β) (k : String) :
    List.lookup k (l.map fun e => (e.1, g e.2)) = (List.lookup k l).map g := by
  induction l with
  | nil => simp [List.lookup]
  | cons e t ih =>
    obtain ⟨k₀, v₀⟩ := e
    by_cases h : k = k₀
    · subst h
      simp [List.lookup]
    · have hne : (k == k₀) = false := by simpa [beq_iff_eq] using h
      simp [List.lookup, hne, ih]

/-! ## Directed graph over node ids (networkx `DiGraph` as used by `state.py`)

`FlowState.from_flow` builds a `DiGraph` with an edge `p → n` for every
`After` trigger of `n` naming `p`.  Only the operations the engine uses are
modelled: `add_node`, `add_edge` (which also inserts missing endpoints),
`successors`, `ancestors` (all nodes with a path to the given node, the node
itself excluded) and `find_cycle`. -/

structure Graph where
  nodes : List String
  edges : List (String × String)
deriving DecidableEq, Repr

def Graph.addNode (g : Graph) (id : String) : Graph :=
  if id ∈ g.nodes then g else { g with nodes := g.nodes ++ [id] }

/-- networkx `add_edge`: missing endpoints are added as nodes. -/
def Graph.addEdge (g : Graph) (a b : String) : Graph :=
  let g := (g.addNode a).addNode b
  if (a, b) ∈ g.edges then g else { g with edges := g.edges ++ [(a, b)] }

def Graph.edgeB (g : Graph) (a b : String) : Bool := (a, b) ∈ g.edges

def Graph.successors (g : Graph) (id : String) : List String :=
  (g.edges.filter fun e => e.1 == id).map fun e => e.2

/-- Edge insertion for one `After` trigger of node `id` (`state.py`,
`FlowState.from_flow` inner loop). -/
def addTriggerEdges (g : Graph) (id : String) (t : Trigger) : Graph :=
  match t with
  | .After ps => ps.foldl (fun g p => g.addEdge p id) g
  | _ => g

/-- Model of `graph.add_node(id)` followed by the trigger loop, for one flow entry. -/
def addNodeEdges (g : Graph) (e : String × ResolvedNode) : Graph :=
  e.2.triggers.foldl (fun g t => addTriggerEdges g e.1 t) (g.addNode e.1)

/-- The graph built by `FlowState.from_flow` (also `ResolvedFlow.graph` in
`config.py`). -/
def afterGraph (flow : ResolvedFlow) : Graph :=
  flow.nodes.foldl addNodeEdges { nodes := [], edges := [] }

theorem mem_addNode_iff (g : Graph) (id x : String) :
    x ∈ (g.addNode id).nodes ↔ x ∈ g.nodes ∨ x = id := by
  unfold Graph.addNode
  by_cases h : id ∈ g.nodes
  · simp only [if_pos h]
    constructor
    · exact Or.inl
    · rintro (hx | rfl)
      · exact hx
      · exact h
  · simp [if_neg h, List.mem_append]

theorem addNode_edges (g : Graph) (id : String) : (g.addNode id).edges = g.edges := by
  unfold Graph.addNode
  by_cases h : id ∈ g.nodes <;> simp [h]

theorem addEdge_edges (g : Graph) (a b : String) :
    (g.addEdge a b).edges = if (a, b) ∈ g.edges then g.edges else g.edges ++ [(a, b)] := by
  simp only [Graph.addEdge, addNode_edges]
  split
  · rw [addNode_edges, addNode_edges]
  · rfl

theorem addEdge_nodes (g : Graph) (a b : String) :
    (g.addEdge a b).nodes = ((g.addNode a).addNode b).nodes := by
  simp only [Graph.addEdge, addNode_edges]
  split <;> rfl

theorem mem_addEdge_edges_iff (g : Graph) (a b : String) (e : String × String) :
    e ∈ (g.addEdge a b).edges ↔ e ∈ g.edges ∨ e = (a, b) := by
  rw [addEdge_edges]
  by_cases h : (a, b) ∈ g.edges
  · simp only [if_pos h]
    constructor
    · exact Or.inl
    · rintro (hx | rfl)
      · exact hx
      · exact h
  · simp [if_neg h, List.mem_append]

theorem mem_addEdge_nodes_iff (g : Graph) (a b : String) (x : String) :
    x ∈ (g.addEdge a b).nodes ↔ x ∈ g.nodes ∨ x = a ∨ x = b := by
  rw [addEdge_nodes]
  simp only [mem_addNode_iff]
  tauto

/-- Edges produced by the `After`-trigger folds, innermost layer. -/
theorem mem_predFold_edges_iff (g : Graph) (id : String) (ps : List String)
    (e : String × String) :
    e ∈ (ps.foldl (fun g p => g.addEdge p id) g).edges ↔
      e ∈ g.edges ∨ ∃ p ∈ ps, e = (p, id) := by
  induction ps generalizing g with
  | nil => simp
  | cons p rest ih =>
    simp only [List.foldl_cons, ih, mem_addEdge_edges_iff, List.mem_cons]
    constructor
    · rintro ((h | rfl) | ⟨q, hq, rfl⟩)
      · exact Or.inl h
      · exact Or.inr ⟨p, Or.inl rfl, rfl⟩
      · exact Or.inr ⟨q, Or.inr hq, rfl⟩
    · rintro (h | ⟨q, (rfl | hq), rfl⟩)
      · exact Or.inl (Or.inl h)
      · exact Or.inl (Or.inr rfl)
      · exact Or.inr ⟨q, hq, rfl⟩

theorem mem_predFold_nodes_iff (g : Graph) (id : String) (ps : List String)
    (x : String) :
    x ∈ (ps.foldl (fun g p => g.addEdge p id) g).nodes ↔
      x ∈ g.nodes ∨ x ∈ ps ∨ (ps ≠ [] ∧ x = id) := by
  induction ps generalizing g with
  | nil => simp
  | cons p rest ih =>
    simp only [List.foldl_cons, ih, mem_addEdge_nodes_iff, List.mem_cons]
    constructor
    · rintro ((h | rfl | rfl) | h | ⟨-, rfl⟩)
      · exact Or.inl h
      · exact Or.inr (Or.inl (Or.inl rfl))
      · exact Or.inr (Or.inr ⟨List.cons_ne_nil _ _, rfl⟩)
      · exact Or.inr (Or.inl (Or.inr h))
      · exact Or.inr (Or.inr ⟨List.cons_ne_nil _ _, rfl⟩)
    · rintro (h | (rfl | h) | ⟨-, rfl⟩)
      · exact Or.inl (Or.inl h)
      · exact Or.inl (Or.inr (Or.inl rfl))
      · exact Or.inr (Or.inl h)
      · exact Or.inl (Or.inr (Or.inr rfl))

theorem mem_addTriggerEdges_edges_iff (g : Graph) (id : String) (t : Trigger)
    (e : String × String) :
    e ∈ (addTriggerEdges g id t).edges ↔
      e ∈ g.edges ∨ ∃ ps, t = Trigger.After ps ∧ ∃ p ∈ ps, e = (p, id) := by
  cases t with
  | After ps => simp [addTriggerEdges, mem_predFold_edges_iff]
  | Once => simp [addTriggerEdges]
  | Restart d => simp [addTriggerEdges]
  | Watch w => simp [addTriggerEdges]

theorem mem_addTriggerEdges_nodes_iff (g : Graph) (id : String) (t : Trigger)
    (x : String) :
    x ∈ (addTriggerEdges g id t).nodes ↔
      x ∈ g.nodes ∨ ∃ ps, t = Trigger.After ps ∧ (x ∈ ps ∨ (ps ≠ [] ∧ x = id)) := by
  cases t with
  | After ps => simp [addTriggerEdges, mem_predFold_nodes_iff, or_assoc]
  | Once => simp [addTriggerEdges]
  | Restart d => simp [addTriggerEdges]
  | Watch w => simp [addTriggerEdges]

theorem mem_triggerFold_edges_iff (g : Graph) (id : String) (ts : List Trigger)
    (e : String × String) :
    e ∈ (ts.foldl (fun g t => addTriggerEdges g id t) g).edges ↔
      e ∈ g.edges ∨ ∃ t ∈ ts, ∃ ps, t = Trigger.After ps ∧ ∃ p ∈ ps, e = (p, id) := by
  induction ts generalizing g with
  | nil => simp
  | cons t rest ih =>
    simp only [List.foldl_cons, ih, mem_addTriggerEdges_edges_iff, List.mem_cons]
    constructor
    · rintro ((h | h) | ⟨t', ht', h⟩)
      · exact Or.inl h
      · exact Or.inr ⟨t, Or.inl rfl, h⟩
      · exact Or.inr ⟨t', Or.inr ht', h⟩
    · rintro (h | ⟨t', (rfl | ht'), h⟩)
      · exact Or.inl (Or.inl h)
      · exact Or.inl (Or.inr h)
      · exact Or.inr ⟨t', ht', h⟩

theorem mem_triggerFold_nodes_iff (g : Graph) (id : String) (ts : List Trigger)
    (x : String) :
    x ∈ (ts.foldl (fun g t => addTriggerEdges g id t) g).nodes ↔
      x ∈ g.nodes ∨ ∃ t ∈ ts, ∃ ps, t = Trigger.After ps ∧ (x ∈ ps ∨ (ps ≠ [] ∧ x = id)) := by
  induction ts generalizing g with
  | nil => simp
  | cons t rest ih =>
    simp only [List.foldl_cons, ih, mem_addTriggerEdges_nodes_iff, List.mem_cons]
    constructor
    · rintro ((h | h) | ⟨t', ht', h⟩)
      · exact Or.inl h
      · exact Or.inr ⟨t, Or.inl rfl, h⟩
      · exact Or.inr ⟨t', Or.inr ht', h⟩
    · rintro (h | ⟨t', (rfl | ht'), h⟩)
      · exact Or.inl (Or.inl h)
      · exact Or.inl (Or.inr h)
      · exact Or.inr ⟨t', ht', h⟩

theorem mem_addNodeEdges_edges_iff (g : Graph) (en : String × ResolvedNode)
    (e : String × String) :
    e ∈ (addNodeEdges g en).edges ↔
      e ∈ g.edges ∨ ∃ t ∈ en.2.triggers, ∃ ps, t = Trigger.After ps ∧ ∃ p ∈ ps, e = (p, en.1) := by
  unfold addNodeEdges
  rw [mem_triggerFold_edges_iff, addNode_edges]

theorem mem_addNodeEdges_nodes_iff (g : Graph) (en : String × ResolvedNode)
    (x : String) :
    x ∈ (addNodeEdges g en).nodes ↔
      x ∈ g.nodes ∨ x = en.1 ∨
        ∃ t ∈ en.2.triggers, ∃ ps, t = Trigger.After ps ∧ x ∈ ps := by
  unfold addNodeEdges
  rw [mem_triggerFold_nodes_iff]
  simp only [mem_addNode_iff]
  constructor
  · rintro ((h | rfl) | ⟨t, ht, ps, rfl, (h | ⟨-, rfl⟩)⟩)
    · exact Or.inl h
    · exact Or.inr (Or.inl rfl)
    · exact Or.inr (Or.inr ⟨_, ht, ps, rfl, h⟩)
    · exact Or.inr (Or.inl rfl)
  · rintro (h | rfl | ⟨t, ht, ps, rfl, h⟩)
    · exact Or.inl (Or.inl h)
    · exact Or.inl (Or.inr rfl)
    · exact Or.inr ⟨_, ht, ps, rfl, Or.inl h⟩

theorem mem_foldl_addNodeEdges_edges_iff (l : List (String × ResolvedNode))
    (g₀ : Graph) (e : String × String) :
    e ∈ (l.foldl addNodeEdges g₀).edges ↔
      e ∈ g₀.edges ∨ ∃ en ∈ l, ∃ t ∈ en.2.triggers, ∃ ps,
        t = Trigger.After ps ∧ ∃ p ∈ ps, e = (p, en.1) := by
  induction l generalizing g₀ with
  | nil => simp
  | cons en rest ih =>
    simp only [List.foldl_cons, ih, mem_addNodeEdges_edges_iff, List.mem_cons]
    constructor
    · rintro ((h | h) | ⟨en', hen', h⟩)
      · exact Or.inl h
      · exact Or.inr ⟨en, Or.inl rfl, h⟩
      · exact Or.inr ⟨en', Or.inr hen', h⟩
    · rintro (h | ⟨en', (rfl | hen'), h⟩)
      · exact Or.inl (Or.inl h)
      · exact Or.inl (Or.inr h)
      · exact Or.inr ⟨en', hen', h⟩

theorem mem_foldl_addNodeEdges_nodes_iff (l : List (String × ResolvedNode))
    (g₀ : Graph) (x : String) :
    x ∈ (l.foldl addNodeEdges g₀).nodes ↔
      x ∈ g₀.nodes ∨ (∃ en ∈ l, x = en.1) ∨
        ∃ en ∈ l, ∃ t ∈ en.2.triggers, ∃ ps, t = Trigger.After ps ∧ x ∈ ps := by
  induction l generalizing g₀ with
  | nil => simp
  | cons en rest ih =>
    simp only [List.foldl_cons, ih, mem_addNodeEdges_nodes_iff, List.mem_cons]
    constructor
    · rintro ((h | rfl | h) | h | ⟨en', hen', h⟩)
      · exact Or.inl h
      · exact Or.inr (Or.inl ⟨en, Or.inl rfl, rfl⟩)
      · exact Or.inr (Or.inr ⟨en, Or.inl rfl, h⟩)
      · rcases h with ⟨en', hen', h⟩
        exact Or.inr (Or.inl ⟨en', Or.inr hen', h⟩)
      · exact Or.inr (Or.inr ⟨en', Or.inr hen', h⟩)
    · rintro (h | ⟨en', (rfl | hen'), h⟩ | ⟨en', (rfl | hen'), h⟩)
      · exact Or.inl (Or.inl h)
      · exact Or.inl (Or.inr (Or.inl h))
      · exact Or.inr (Or.inl ⟨en', hen', h⟩)
      · exact Or.inl (Or.inr (Or.inr h))
      · exact Or.inr (Or.inr ⟨en', hen', h⟩)

/-- Characterization of the edges of the `After` graph: exactly the pairs
`(p, k)` where the node stored at key `k` has an `After` trigger naming `p`. -/
theorem mem_afterGraph_edges_iff (flow : ResolvedFlow) (e : String × String) :
    e ∈ (afterGraph flow).edges ↔
      ∃ en ∈ flow.nodes, ∃ t ∈ en.2.triggers, ∃ ps,
        t = Trigger.After ps ∧ ∃ p ∈ ps, e = (p, en.1) := by
  unfold afterGraph
  rw [mem_foldl_addNodeEdges_edges_iff]
  simp

/-- Characterization of the nodes of the `After` graph: flow keys plus all
ids referenced by some `After` trigger. -/
theorem mem_afterGraph_nodes_iff (flow : ResolvedFlow) (x : String) :
    x ∈ (afterGraph flow).nodes ↔
      (∃ en ∈ flow.nodes, x = en.1) ∨
      (∃ en ∈ flow.nodes, ∃ t ∈ en.2.triggers, ∃ ps, t = Trigger.After ps ∧ x ∈ ps) := by
  unfold afterGraph
  rw [mem_foldl_addNodeEdges_nodes_iff]
  simp

/-! ## Reachability: `networkx.ancestors` and `networkx.find_cycle`

`ancestors(G, n)` is the set of nodes with a (nonempty) path to `n`, `n`
itself excluded; `find_cycle(G)` returns a cycle when one exists.  Both are
library calls in the source; they are modelled by a saturation computation
that also records, for every node that reaches `id`, an explicit walk — which
lets us both execute the functions and prove them correct against the
path-based specification `Reaches`. -/

/-- Last node of the nonempty walk `a :: p`. -/
def lastD : String → List String → String
  | a, [] => a
  | _, b :: t => lastD b t

/-- Model of `a :: p` is a walk in `g` ending at `id`. -/
def WalkTo (g : Graph) (a : String) (p : List String) (id : String) : Prop :=
  List.Chain (fun x y => g.edgeB x y = true) a p ∧ lastD a p = id

/-- There is a path (at least one edge) from `a` to `b` in `g`. -/
def Reaches (g : Graph) (a b : String) : Prop :=
  ∃ p, List.Chain (fun x y => g.edgeB x y = true) a (p ++ [b])

/-- Every edge endpoint is a node of the graph (true of networkx graphs by
construction of `add_edge`; proved below for `afterGraph`). -/
def EdgesClosed (g : Graph) : Prop :=
  ∀ a b, g.edgeB a b = true → a ∈ g.nodes ∧ b ∈ g.nodes

/-- One saturation visit: if `a` has no recorded walk yet but some recorded
walk starts at a successor of `a`, record the extended walk for `a`. -/
def reachStepNode (g : Graph) (m : List (String × List String)) (a : String) :
    List (String × List String) :=
  if (List.lookup a m).isSome then m
  else
    match m.find? (fun e => g.edgeB a e.1) with
    | some e => m ++ [(a, e.1 :: e.2)]
    | none => m

def reachStep (g : Graph) (m : List (String × List String)) : List (String × List String) :=
  g.nodes.foldl (reachStepNode g) m

def reachMapAux (g : Graph) : Nat → List (String × List String) → List (String × List String)
  | 0, m => m
  | n + 1, m => reachMapAux g n (reachStep g m)

/-- All nodes with a path to `id`, each with a witnessing walk (`id` itself
has the empty walk). -/
def reachMap (g : Graph) (id : String) : List (String × List String) :=
  reachMapAux g (g.nodes.length + 1) [(id, [])]

/-- Model of `networkx.ancestors(g, id)`: nodes with a path to `id`, excluding `id`. -/
def Graph.ancestors (g : Graph) (id : String) : List String :=
  ((reachMap g id).map Prod.fst).filter fun a => a != id

theorem edgeB_iff (g : Graph) (a b : String) : g.edgeB a b = true ↔ (a, b) ∈ g.edges := by
  simp [Graph.edgeB]

/-! ### Association-list and fold helpers for the saturation -/

theorem lookup_isSome_iff {α : Type} (m : List (String × α)) (k : String) :
    (List.lookup k m).isSome = true ↔ k ∈ m.map Prod.fst := by
  induction m with
  | nil => simp [List.lookup]
  | cons e t ih =>
    obtain ⟨k₀, v₀⟩ := e
    by_cases h : k = k₀
    · subst h
      simp [List.lookup]
    · have hne : (k == k₀) = false := by simpa [beq_iff_eq] using h
      simp [List.lookup, hne, ih, h]

theorem lookup_mem {α : Type} {m : List (String × α)} {k : String} {v : α}
    (h : List.lookup k m = some v) : (k, v) ∈ m := by
  induction m with
  | nil => simp [List.lookup] at h
  | cons e t ih =>
    obtain ⟨k₀, v₀⟩ := e
    by_cases hk : k = k₀
    · subst hk
      simp [List.lookup] at h
      simp [h]
    · have hne : (k == k₀) = false := by simpa [beq_iff_eq] using hk
      simp only [List.lookup, hne] at h
      exact List.mem_cons_of_mem _ (ih h)

theorem lookup_append_some {α : Type} {m : List (String × α)} {k : String} {v : α}
    (t : List (String × α)) (h : List.lookup k m = some v) :
    List.lookup k (m ++ t) = some v := by
  induction m with
  | nil => simp [List.lookup] at h
  | cons e rest ih =>
    obtain ⟨k₀, v₀⟩ := e
    by_cases hk : k = k₀
    · subst hk
      simp [List.lookup] at h ⊢
      exact h
    · have hne : (k == k₀) = false := by simpa [beq_iff_eq] using hk
      simp only [List.cons_append, List.lookup, hne] at h ⊢
      exact ih h

theorem foldl_app {α β : Type} (f : List α → β → List α)
    (h : ∀ m x, ∃ t, f m x = m ++ t) (l : List β) (m : List α) :
    ∃ t, l.foldl f m = m ++ t := by
  induction l generalizing m with
  | nil => exact ⟨[], by simp⟩
  | cons x rest ih =>
    obtain ⟨t₀, h₀⟩ := h m x
    obtain ⟨t₁, h₁⟩ := ih (f m x)
    exact ⟨t₀ ++ t₁, by rw [List.foldl_cons, h₁, h₀, List.append_assoc]⟩

theorem foldl_fixed {α β : Type} (f : List α → β → List α)
    (h : ∀ m x, ∃ t, f m x = m ++ t) (l : List β) (m : List α)
    (hfix : l.foldl f m = m) : ∀ x ∈ l, f m x = m := by
  induction l generalizing m with
  | nil => simp
  | cons x rest ih =>
    obtain ⟨t₀, h₀⟩ := h m x
    obtain ⟨t₁, h₁⟩ := foldl_app f h rest (f m x)
    rw [List.foldl_cons, h₁, h₀, List.append_assoc] at hfix
    have hlen := congrArg List.length hfix
    simp only [List.length_append] at hlen
    have ht : t₀ = [] ∧ t₁ = [] := by
      constructor <;> [skip; skip] <;>
        simpa using List.length_eq_zero.mp (by omega)
    intro y hy
    have hfx : f m x = m := by rw [h₀, ht.1, List.append_nil]
    rcases List.mem_cons.mp hy with rfl | hy'
    · exact hfx
    · have hrest : List.foldl f m rest = m := by
        rw [hfx] at h₁
        rw [h₁, ht.2, List.append_nil]
      exact ih m hrest y hy'
/-! ### Saturation invariants -/

/-- Invariant of the saturation map: every entry records a genuine walk to
`id`, keys are distinct, and keys are `id` or graph nodes. -/
def ReachInv (g : Graph) (id : String) (m : List (String × List String)) : Prop :=
  (∀ e ∈ m, WalkTo g e.1 e.2 id) ∧ (m.map Prod.fst).Nodup ∧
    ∀ k ∈ m.map Prod.fst, k = id ∨ k ∈ g.nodes

theorem reachStepNode_app (g : Graph) (m : List (String × List String)) (a : String) :
    ∃ t, reachStepNode g m a = m ++ t := by
  unfold reachStepNode
  split
  · exact ⟨[], by simp⟩
  · split
    · exact ⟨_, rfl⟩
    · exact ⟨[], by simp⟩

theorem reachStepNode_inv (g : Graph) (id : String) (m : List (String × List String))
    (a : String) (ha : a ∈ g.nodes) (h : ReachInv g id m) :
    ReachInv g id (reachStepNode g m a) := by
  obtain ⟨hwalk, hnodup, hkeys⟩ := h
  unfold reachStepNode
  split
  · exact ⟨hwalk, hnodup, hkeys⟩
  · rename_i hnone
    split
    · rename_i e hfind
      have hedge : g.edgeB a e.1 = true := by
        have := List.find?_some (p := fun x : String × List String => g.edgeB a x.1) hfind
        simpa using this
      have hmem : e ∈ m := List.mem_of_find?_eq_some hfind
      have hw : WalkTo g e.1 e.2 id := hwalk e hmem
      have hanotin : a ∉ m.map Prod.fst := by
        intro hin
        exact hnone ((lookup_isSome_iff m a).mpr hin)
      refine ⟨?_, ?_, ?_⟩
      · intro e' he'
        rcases List.mem_append.mp he' with he' | he'
        · exact hwalk e' he'
        · have : e' = (a, e.1 :: e.2) := by simpa using he'
          subst this
          exact ⟨List.chain_cons.mpr ⟨hedge, hw.1⟩, by simpa [lastD] using hw.2⟩
      · rw [List.map_append]
        refine List.nodup_append.mpr ⟨hnodup, List.nodup_singleton _, fun x hx hx' => ?_⟩
        have : x = a := by simpa using hx'
        subst this
        exact hanotin hx
      · intro k hk
        rw [List.map_append] at hk
        rcases List.mem_append.mp hk with hk | hk
        · exact hkeys k hk
        · have : k = a := by simpa using hk
          subst this
          exact Or.inr ha
    · exact ⟨hwalk, hnodup, hkeys⟩

theorem reachStep_inv (g : Graph) (id : String) (m : List (String × List String))
    (h : ReachInv g id m) : ReachInv g id (reachStep g m) := by
  unfold reachStep
  have : ∀ l : List String, (∀ x ∈ l, x ∈ g.nodes) → ∀ m, ReachInv g id m →
      ReachInv g id (l.foldl (reachStepNode g) m) := by
    intro l
    induction l with
    | nil => intro _ m hm; exact hm
    | cons x rest ih =>
      intro hl m hm
      rw [List.foldl_cons]
      exact ih (fun y hy => hl y (List.mem_cons_of_mem _ hy))
        _ (reachStepNode_inv g id m x (hl x (List.mem_cons_self _ _)) hm)
  exact this g.nodes (fun x hx => hx) m h

theorem reachMapAux_inv (g : Graph) (id : String) :
    ∀ (n : Nat) (m : List (String × List String)), ReachInv g id m →
      ReachInv g id (reachMapAux g n m) := by
  intro n
  induction n with
  | zero => intro m hm; exact hm
  | succ k ih => intro m hm; exact ih _ (reachStep_inv g id m hm)

theorem reachMap_inv (g : Graph) (id : String) : ReachInv g id (reachMap g id) := by
  apply reachMapAux_inv
  refine ⟨?_, by simp, by simp⟩
  intro e he
  have : e = (id, []) := by simpa using he
  subst this
  exact ⟨List.Chain.nil, rfl⟩

theorem reachStep_app (g : Graph) (m : List (String × List String)) :
    ∃ t, reachStep g m = m ++ t :=
  foldl_app _ (reachStepNode_app g) g.nodes m

theorem reachMapAux_app (g : Graph) (n : Nat) (m : List (String × List String)) :
    ∃ t, reachMapAux g n m = m ++ t := by
  induction n generalizing m with
  | zero => exact ⟨[], by simp [reachMapAux]⟩
  | succ k ih =>
    obtain ⟨t₀, h₀⟩ := reachStep_app g m
    obtain ⟨t₁, h₁⟩ := ih (reachStep g m)
    exact ⟨t₀ ++ t₁, by rw [reachMapAux, h₁, h₀, List.append_assoc]⟩

theorem reachMapAux_of_fixed (g : Graph) (m : List (String × List String))
    (h : reachStep g m = m) : ∀ n, reachMapAux g n m = m := by
  intro n
  induction n with
  | zero => rfl
  | succ k ih => rw [reachMapAux, h]; exact ih

theorem reachMapAux_fix_or_grow (g : Graph) :
    ∀ (n : Nat) (m : List (String × List String)),
      reachStep g (reachMapAux g n m) = reachMapAux g n m ∨
        m.length + n ≤ (reachMapAux g n m).length := by
  intro n
  induction n with
  | zero => intro m; right; simp [reachMapAux]
  | succ k ih =>
    intro m
    by_cases hfix : reachStep g m = m
    · left
      rw [reachMapAux, hfix, reachMapAux_of_fixed g m hfix]
      exact hfix
    · rcases ih (reachStep g m) with h | h
      · left
        rw [reachMapAux]
        exact h
      · right
        rw [reachMapAux]
        obtain ⟨t, ht⟩ := reachStep_app g m
        have : t ≠ [] := by
          intro hnil
          rw [hnil, List.append_nil] at ht
          exact hfix ht
        have hlen : m.length + 1 ≤ (reachStep g m).length := by
          rw [ht, List.length_append]
          have := List.length_pos.mpr this
          omega
        omega

theorem length_le_of_inv (g : Graph) (id : String) (m : List (String × List String))
    (h : ReachInv g id m) : m.length ≤ g.nodes.length + 1 := by
  obtain ⟨-, hnodup, hkeys⟩ := h
  have hmap : (m.map Prod.fst).length = m.length := List.length_map _ _
  have hsub : (m.map Prod.fst).toFinset ⊆ (id :: g.nodes).toFinset := by
    intro x hx
    rw [List.mem_toFinset] at hx ⊢
    rcases hkeys x hx with rfl | hx'
    · exact List.mem_cons_self _ _
    · exact List.mem_cons_of_mem _ hx'
  calc m.length = (m.map Prod.fst).length := hmap.symm
    _ = (m.map Prod.fst).toFinset.card := (List.toFinset_card_of_nodup hnodup).symm
    _ ≤ (id :: g.nodes).toFinset.card := Finset.card_le_card hsub
    _ ≤ (id :: g.nodes).length := List.toFinset_card_le _
    _ = g.nodes.length + 1 := by simp

theorem reachMap_fixed (g : Graph) (id : String) :
    reachStep g (reachMap g id) = reachMap g id := by
  rcases reachMapAux_fix_or_grow g (g.nodes.length + 1) [(id, [])] with h | h
  · exact h
  · exfalso
    have hle := length_le_of_inv g id (reachMap g id) (reachMap_inv g id)
    unfold reachMap at hle
    simp only [List.length_cons, List.length_nil] at h
    omega

theorem reachStep_saturated (g : Graph) (m : List (String × List String))
    (hfix : reachStep g m = m) (a : String) (ha : a ∈ g.nodes)
    (hnone : List.lookup a m = none) : ∀ e ∈ m, g.edgeB a e.1 = false := by
  have hnode := foldl_fixed _ (reachStepNode_app g) g.nodes m hfix a ha
  unfold reachStepNode at hnode
  rw [hnone] at hnode
  simp only [Option.isSome_none, Bool.false_eq_true, if_false] at hnode
  rcases hfind : m.find? (fun e => g.edgeB a e.1) with - | e
  · intro e he
    have := List.find?_eq_none.mp hfind e he
    simpa using this
  · rw [hfind] at hnode
    exfalso
    have := congrArg List.length hnode
    simp at this
theorem lastD_append_single (q : List String) (a x : String) :
    lastD a (q ++ [x]) = x := by
  induction q generalizing a with
  | nil => rfl
  | cons b t ih => exact ih b

theorem dropLast_append_lastD (a : String) (p : List String) :
    (a :: p).dropLast ++ [lastD a p] = a :: p := by
  induction p generalizing a with
  | nil => rfl
  | cons b t ih =>
    rw [List.dropLast_cons₂, lastD, List.cons_append, ih]

/-- The key entry `(id, [])` survives into the saturated map. -/
theorem reachMap_lookup_id (g : Graph) (id : String) :
    List.lookup id (reachMap g id) = some [] := by
  obtain ⟨t, ht⟩ := reachMapAux_app g (g.nodes.length + 1) [(id, [])]
  unfold reachMap
  rw [ht]
  exact lookup_append_some t (by simp [List.lookup])

/-- Completeness of the saturation: every walk into `id` whose start is
recorded nowhere would extend the fixed point — contradiction. -/
theorem reachMap_complete (g : Graph) (id : String) (hg : EdgesClosed g) :
    ∀ (p : List String) (a : String),
      List.Chain (fun x y => g.edgeB x y = true) a p → lastD a p = id →
        (List.lookup a (reachMap g id)).isSome = true := by
  intro p
  induction p with
  | nil =>
    intro a _ hlast
    have : a = id := hlast
    subst this
    rw [reachMap_lookup_id]
    rfl
  | cons b p' ih =>
    intro a hchain hlast
    obtain ⟨hedge, hchain'⟩ := List.chain_cons.mp hchain
    have hb := ih b hchain' hlast
    obtain ⟨q, hq⟩ := Option.isSome_iff_exists.mp hb
    have hmem : (b, q) ∈ reachMap g id := lookup_mem hq
    have ha : a ∈ g.nodes := (hg a b hedge).1
    by_contra hnot
    have hnone : List.lookup a (reachMap g id) = none := by
      cases h : List.lookup a (reachMap g id) with
      | none => rfl
      | some v => rw [h] at hnot; exact absurd rfl hnot
    have := reachStep_saturated g (reachMap g id) (reachMap_fixed g id) a ha hnone
      (b, q) hmem
    rw [hedge] at this
    exact Bool.true_eq_false.mp this

/-- Model of `ancestors` agrees with path-reachability. -/
theorem mem_ancestors_iff (g : Graph) (hg : EdgesClosed g) (id a : String) :
    a ∈ g.ancestors id ↔ a ≠ id ∧ Reaches g a id := by
  unfold Graph.ancestors
  rw [List.mem_filter]
  constructor
  · rintro ⟨hkey, hne⟩
    have hne' : a ≠ id := by simpa using hne
    obtain ⟨e, he, he1⟩ := List.mem_map.mp hkey
    obtain ⟨p, hp⟩ : ∃ p, (a, p) ∈ reachMap g id := ⟨e.2, by rwa [show (a, e.2) = e by rw [← he1]]⟩
    have hw := (reachMap_inv g id).1 (a, p) hp
    obtain ⟨hchain, hlast⟩ := hw
    refine ⟨hne', ?_⟩
    cases hpe : p with
    | nil =>
      exfalso
      apply hne'
      rw [hpe] at hlast
      exact hlast
    | cons b t =>
      rw [hpe] at hchain hlast
      obtain ⟨q, x, hqx⟩ : ∃ q x, b :: t = q ++ [x] := by
        rcases List.eq_nil_or_concat (b :: t) with h | ⟨q, x, h⟩
        · simp at h
        · exact ⟨q, x, by rw [h, List.concat_eq_append]⟩
      rw [hqx] at hchain hlast
      rw [lastD_append_single] at hlast
      subst hlast
      exact ⟨q, hchain⟩
  · rintro ⟨hne, p, hchain⟩
    have hlast : lastD a (p ++ [id]) = id := lastD_append_single p a id
    have := reachMap_complete g id hg (p ++ [id]) a hchain hlast
    refine ⟨?_, by simpa using hne⟩
    rw [lookup_isSome_iff] at this
    exact this

/-! ### Cycles (`networkx.find_cycle` as used by `FlowState.from_flow`) -/

/-- Model of `c` is a (nonempty) cycle in `g`: consecutive elements are edges and the
last element has an edge back to the first. -/
def IsCycle (g : Graph) (c : List String) : Prop :=
  c ≠ [] ∧ List.Chain' (fun x y => g.edgeB x y = true) (c ++ [c.headI])

/-- Executable cycle search: a cycle exists iff some node `u` has an edge to
a node that reaches `u`. The recorded walk makes the cycle explicit, matching
`find_cycle` returning the node sequence of the loop. -/
def findCycle (g : Graph) : Option (List String) :=
  g.nodes.findSome? fun u =>
    match (reachMap g u).find? (fun e => g.edgeB u e.1) with
    | some e => some ((u :: e.1 :: e.2).dropLast)
    | none => none

theorem findSome?_some_ex {α β : Type} {f : α → Option β} {l : List α} {b : β}
    (h : l.findSome? f = some b) : ∃ x ∈ l, f x = some b := by
  induction l with
  | nil => simp [List.findSome?] at h
  | cons x rest ih =>
    rw [List.findSome?_cons] at h
    cases hfx : f x with
    | some y =>
      rw [hfx] at h
      simp only at h
      exact ⟨x, List.mem_cons_self _ _, by rw [hfx, h]⟩
    | none =>
      rw [hfx] at h
      simp only at h
      obtain ⟨y, hy, hfy⟩ := ih h
      exact ⟨y, List.mem_cons_of_mem _ hy, hfy⟩

theorem findCycle_sound (g : Graph) (c : List String) (h : findCycle g = some c) :
    IsCycle g c := by
  obtain ⟨u, hu, hinner⟩ := findSome?_some_ex h
  rcases hfind : (reachMap g u).find? (fun e => g.edgeB u e.1) with - | e
  · rw [hfind] at hinner
    simp at hinner
  · rw [hfind] at hinner
    have hc : c = (u :: e.1 :: e.2).dropLast := by
      simpa using hinner.symm
    have hedge : g.edgeB u e.1 = true := by
      have := List.find?_some (p := fun x : String × List String => g.edgeB u x.1) hfind
      simpa using this
    have hmem := List.mem_of_find?_eq_some hfind
    have hw := (reachMap_inv g u).1 e hmem
    obtain ⟨hchain, hlast⟩ := hw
    have hdrop : c = u :: (e.1 :: e.2).dropLast := by
      rw [hc, List.dropLast_cons₂]
    have hfull : c ++ [u] = u :: e.1 :: e.2 := by
      rw [hdrop]
      have := dropLast_append_lastD e.1 e.2
      rw [hlast] at this
      rw [List.cons_append, this]
    constructor
    · rw [hdrop]; exact List.cons_ne_nil _ _
    · have hhead : c.headI = u := by rw [hdrop]; rfl
      rw [hhead, hfull]
      show List.Chain (fun x y => g.edgeB x y = true) u (e.1 :: e.2)
      exact List.chain_cons.mpr ⟨hedge, hchain⟩

theorem findCycle_complete (g : Graph) (hg : EdgesClosed g) (c : List String)
    (hc : IsCycle g c) : ∃ c', findCycle g = some c' := by
  cases hfc : findCycle g with
  | some c' => exact ⟨c', rfl⟩
  | none =>
    exfalso
    obtain ⟨hne, hchain'⟩ := hc
    obtain ⟨a, t, rfl⟩ : ∃ a t, c = a :: t := by
      cases c with
      | nil => exact absurd rfl hne
      | cons a t => exact ⟨a, t, rfl⟩
    have hchain : List.Chain (fun x y => g.edgeB x y = true) a (t ++ [a]) := by
      have : (a :: t).headI = a := rfl
      rw [this] at hchain'
      exact hchain'
    have hnone := List.findSome?_eq_none_iff.mp hfc
    cases t with
    | nil =>
      obtain ⟨hedge, -⟩ := List.chain_cons.mp hchain
      have ha : a ∈ g.nodes := (hg a a hedge).1
      have := hnone a ha
      rcases hfind : (reachMap g a).find? (fun e => g.edgeB a e.1) with - | e
      · have hmem : ((a, []) : String × List String) ∈ reachMap g a :=
          lookup_mem (reachMap_lookup_id g a)
        have := List.find?_eq_none.mp hfind (a, []) hmem
        simp only at this
        rw [hedge] at this
        exact this rfl
      · rw [hfind] at this
        simp at this
    | cons b t' =>
      obtain ⟨hedge, hchain₂⟩ := List.chain_cons.mp hchain
      have ha : a ∈ g.nodes := (hg a b hedge).1
      have hlast : lastD b (t' ++ [a]) = a := lastD_append_single t' b a
      have hb := reachMap_complete g a hg (t' ++ [a]) b hchain₂ hlast
      obtain ⟨q, hq⟩ := Option.isSome_iff_exists.mp hb
      have hmem : (b, q) ∈ reachMap g a := lookup_mem hq
      have := hnone a ha
      rcases hfind : (reachMap g a).find? (fun e => g.edgeB a e.1) with - | e
      · have := List.find?_eq_none.mp hfind (b, q) hmem
        simp only at this
        rw [hedge] at this
        exact this rfl
      · rw [hfind] at this
        simp at this
theorem afterGraph_closed (flow : ResolvedFlow) : EdgesClosed (afterGraph flow) := by
  intro a b h
  rw [edgeB_iff] at h
  obtain ⟨en, hen, t, ht, ps, rfl, p, hp, hpe⟩ := (mem_afterGraph_edges_iff flow _).mp h
  obtain ⟨rfl, rfl⟩ : a = p ∧ b = en.1 := by
    constructor <;> [exact congrArg Prod.fst hpe; exact congrArg Prod.snd hpe]
  constructor
  · exact (mem_afterGraph_nodes_iff flow _).mpr (Or.inr ⟨en, hen, _, ht, ps, rfl, hp⟩)
  · exact (mem_afterGraph_nodes_iff flow _).mpr (Or.inl ⟨en, hen, rfl⟩)

/-- Every edge of the `After` graph points at a flow key: edges are only ever
added as `(predecessor, id)` for `id` a key of `flow.nodes`. -/
theorem afterGraph_edge_target_isSome (flow : ResolvedFlow) (a b : String)
    (h : (afterGraph flow).edgeB a b = true) :
    (List.lookup b flow.nodes).isSome = true := by
  rw [edgeB_iff] at h
  obtain ⟨en, hen, t, ht, ps, rfl, p, hp, hpe⟩ := (mem_afterGraph_edges_iff flow _).mp h
  have hb : b = en.1 := congrArg Prod.snd hpe
  subst hb
  rw [lookup_isSome_iff]
  exact List.mem_map.mpr ⟨en, hen, rfl⟩

/-! ## Flow state (`state.py`) -/

/-- Model of `state.py`, `class FlowState` (graph, flow, statuses dict). -/
structure FlowState where
  graph : Graph
  flow : ResolvedFlow
  statuses : List (String × Status)
deriving DecidableEq, Repr

/-- Model of `FlowState.from_flow`: build the `After` graph, run `find_cycle`; a found
cycle raises `CyclicFlowDetected(cycle)` (modelled as `Except.error` carrying
the cycle's node sequence), otherwise every graph node starts Pending. -/
def FlowState.from_flow (flow : ResolvedFlow) : Except (List String) FlowState :=
  match findCycle (afterGraph flow) with
  | some cycle => .error cycle
  | none =>
    .ok { graph := afterGraph flow, flow := flow,
          statuses := (afterGraph flow).nodes.map fun id => (id, Status.Pending) }

/-- Status dict read `self.statuses[id]`.  Every read the engine performs is
at a key present in the dict (a graph node), where the default written here
is irrelevant; it only makes the model total. -/
def statusOf (st : FlowState) (id : String) : Status :=
  (List.lookup id st.statuses).getD Status.Pending

/-- Model of `FlowState.mark(*nodes, status)` (dict writes), at id level. -/
def FlowState.mark (st : FlowState) (ids : List String) (s : Status) : FlowState :=
  { st with statuses := ids.foldl (fun m id => setKey m id s) st.statuses }

/-- The ids passing the `ready_nodes` filter: status Pending and every
ancestor Succeeded or Waiting. -/
def readyIds (st : FlowState) : List String :=
  st.graph.nodes.filter fun id =>
    statusOf st id == Status.Pending &&
      ((st.graph.ancestors id).all fun a =>
        statusOf st a == Status.Succeeded || statusOf st a == Status.Waiting)

/-- Left-to-right effectful map: Python's `tuple(f(x) for x in l)`, where the
first raised `KeyError` aborts the whole construction. -/
def mapExcept {α β : Type} (f : α → Except String β) : List α → Except String (List β)
  | [] => .ok []
  | x :: t =>
    match f x with
    | .error e => .error e
    | .ok y =>
      match mapExcept f t with
      | .error e => .error e
      | .ok ys => .ok (y :: ys)

/-- Model of `FlowState.ready_nodes`: the node lookup `self.flow.nodes[id]` raises
`KeyError` (modelled `Except.error id`) when a ready id is not a flow key. -/
def FlowState.ready_nodes (st : FlowState) : Except String (List ResolvedNode) :=
  mapExcept
    (fun id =>
      match List.lookup id st.flow.nodes with
      | some n => Except.ok n
      | none => Except.error id)
    (readyIds st)

/-- Model of `FlowState.all_succeeded`: every status value is Succeeded. -/
def FlowState.all_succeeded (st : FlowState) : Bool :=
  st.statuses.all fun e => e.2 == Status.Succeeded

/-- First loop of `no_more_work_possible`: some node of the flow carries a
`RepeatingTrigger` (Restart or Watch). -/
def hasRepeatingTrigger (flow : ResolvedFlow) : Bool :=
  flow.nodes.any fun e => e.2.triggers.any Trigger.isRepeating

/-- Model of `FlowState.nodes_by_status` as consulted by `no_more_work_possible`:
pairs every status entry with its node, raising `KeyError` for ids missing
from the flow dict. -/
def nodesByStatus (st : FlowState) : Except String (List (Status × ResolvedNode)) :=
  mapExcept
    (fun e =>
      match List.lookup e.1 st.flow.nodes with
      | some n => Except.ok (e.2, n)
      | none => Except.error e.1)
    st.statuses

/-- Ids currently carrying status `s`. -/
def statusIds (st : FlowState) (s : Status) : List String :=
  (st.statuses.filter fun e => e.2 == s).map Prod.fst

/-- Model of `FlowState.no_more_work_possible`: false when any node has a repeating
trigger; otherwise no ready nodes and no Running or Starting nodes. -/
def FlowState.no_more_work_possible (st : FlowState) : Except String Bool :=
  if hasRepeatingTrigger st.flow then .ok false
  else do
    let nbs ← nodesByStatus st
    let ready ← st.ready_nodes
    .ok (ready.isEmpty && ((nbs.filter fun e => e.1 == Status.Running).isEmpty
      && (nbs.filter fun e => e.1 == Status.Starting).isEmpty))

/-- Total boolean form of `no_more_work_possible`, used by the orchestrator
model; agrees with the faithful fallible form on well-formed states
(`no_more_work_possible_eq_ok` below). -/
def noMoreWorkPossibleB (st : FlowState) : Bool :=
  if hasRepeatingTrigger st.flow then false
  else (readyIds st).isEmpty && ((statusIds st Status.Running).isEmpty
    && (statusIds st Status.Starting).isEmpty)

/-- Well-formedness: all graph nodes and all status keys are flow keys (true
whenever every `After` trigger names existing nodes). -/
def WellFormed (st : FlowState) : Prop :=
  (∀ id ∈ st.graph.nodes, (List.lookup id st.flow.nodes).isSome = true) ∧
    ∀ e ∈ st.statuses, (List.lookup e.1 st.flow.nodes).isSome = true

/-! ### FlowState lemmas -/

theorem mapExcept_ok_of_all {α β : Type} (f : α → Except String β) (l : List α)
    (h : ∀ x ∈ l, ∃ y, f x = .ok y) : ∃ ys, mapExcept f l = .ok ys := by
  induction l with
  | nil => exact ⟨[], rfl⟩
  | cons x t ih =>
    obtain ⟨y, hy⟩ := h x (List.mem_cons_self _ _)
    obtain ⟨ys, hys⟩ := ih fun z hz => h z (List.mem_cons_of_mem _ hz)
    exact ⟨y :: ys, by rw [mapExcept, hy, hys]⟩

theorem mapExcept_error_ex {α β : Type} {f : α → Except String β} {l : List α} {e : String}
    (h : mapExcept f l = .error e) : ∃ x ∈ l, f x = .error e := by
  induction l with
  | nil => exact absurd h (by rw [mapExcept]; intro hc; cases hc)
  | cons x t ih =>
    rw [mapExcept] at h
    cases hfx : f x with
    | error e' =>
      rw [hfx] at h
      cases h
      exact ⟨x, List.mem_cons_self _ _, hfx⟩
    | ok y =>
      rw [hfx] at h
      cases hrest : mapExcept f t with
      | error e' =>
        rw [hrest] at h
        cases h
        obtain ⟨z, hz, hfz⟩ := ih hrest
        exact ⟨z, List.mem_cons_of_mem _ hz, hfz⟩
      | ok ys =>
        rw [hrest] at h
        cases h

theorem mapExcept_ok_all {α β : Type} {f : α → Except String β} {l : List α}
    {ys : List β} (h : mapExcept f l = .ok ys) : ∀ z ∈ l, ∃ y, f z = .ok y := by
  induction l generalizing ys with
  | nil => simp
  | cons w t ih =>
    intro z hz
    rw [mapExcept] at h
    cases hfw : f w with
    | error e => rw [hfw] at h; cases h
    | ok y =>
      rw [hfw] at h
      cases hrest : mapExcept f t with
      | error e => rw [hrest] at h; cases h
      | ok ys' =>
        rw [hrest] at h
        rcases List.mem_cons.mp hz with rfl | hz'
        · exact ⟨y, hfw⟩
        · exact ih hrest z hz'

theorem mapExcept_isError_of_ex {α β : Type} (f : α → Except String β) (l : List α)
    (h : ∃ x ∈ l, ∀ y, f x ≠ .ok y) :
    ∃ e, mapExcept f l = .error e ∧ ∃ x ∈ l, f x = .error e := by
  cases hm : mapExcept f l with
  | error e => exact ⟨e, rfl, mapExcept_error_ex hm⟩
  | ok ys =>
    exfalso
    obtain ⟨x, hx, hbad⟩ := h
    obtain ⟨y, hy⟩ := mapExcept_ok_all hm x hx
    exact hbad y hy

theorem lookup_isSome_of_mem {α : Type} {m : List (String × α)} {e : String × α}
    (h : e ∈ m) : (List.lookup e.1 m).isSome = true := by
  rw [lookup_isSome_iff]
  exact List.mem_map.mpr ⟨e, h, rfl⟩

theorem lookup_map_const {α : Type} (l : List String) (c : α) (k : String) :
    List.lookup k (l.map fun id => (id, c)) = if k ∈ l then some c else none := by
  induction l with
  | nil => simp [List.lookup]
  | cons x t ih =>
    by_cases h : k = x
    · subst h
      simp [List.lookup]
    · have hne : (k == x) = false := by simpa [beq_iff_eq] using h
      simp only [List.map_cons, List.lookup, hne, ih, List.mem_cons]
      by_cases h' : k ∈ t <;> simp [h', h]

theorem lookup_foldl_setKey (m : List (String × Status)) (ids : List String)
    (s : Status) (k : String) :
    List.lookup k (ids.foldl (fun m id => setKey m id s) m) =
      if k ∈ ids then some s else List.lookup k m := by
  induction ids generalizing m with
  | nil => simp
  | cons id rest ih =>
    rw [List.foldl_cons, ih]
    by_cases hmem : k ∈ rest
    · simp [hmem, List.mem_cons]
    · by_cases hk : k = id
      · subst hk
        simp [hmem, lookup_setKey_self]
      · simp [hmem, hk, lookup_setKey_ne m id k s hk]

theorem statusOf_mark (st : FlowState) (ids : List String) (s : Status) (id : String) :
    statusOf (st.mark ids s) id = if id ∈ ids then s else statusOf st id := by
  unfold statusOf FlowState.mark
  simp only
  rw [lookup_foldl_setKey]
  by_cases h : id ∈ ids <;> simp [h]

theorem mark_graph (st : FlowState) (ids : List String) (s : Status) :
    (st.mark ids s).graph = st.graph := rfl

theorem mark_flow (st : FlowState) (ids : List String) (s : Status) :
    (st.mark ids s).flow = st.flow := rfl

/-- Membership in `readyIds`, characterized through path reachability. -/
theorem mem_readyIds_iff (st : FlowState) (hg : EdgesClosed st.graph) (id : String) :
    id ∈ readyIds st ↔
      id ∈ st.graph.nodes ∧ statusOf st id = Status.Pending ∧
        ∀ a, a ≠ id → Reaches st.graph a id →
          (statusOf st a = Status.Succeeded ∨ statusOf st a = Status.Waiting) := by
  unfold readyIds
  rw [List.mem_filter]
  constructor
  · rintro ⟨hmem, hcond⟩
    rw [Bool.and_eq_true] at hcond
    obtain ⟨hpend, hall⟩ := hcond
    refine ⟨hmem, by simpa using hpend, ?_⟩
    intro a hne hr
    have ha : a ∈ st.graph.ancestors id := (mem_ancestors_iff st.graph hg id a).mpr ⟨hne, hr⟩
    have := List.all_eq_true.mp hall a ha
    rcases Bool.or_eq_true_iff.mp this with h | h
    · exact Or.inl (by simpa using h)
    · exact Or.inr (by simpa using h)
  · rintro ⟨hmem, hpend, hanc⟩
    refine ⟨hmem, ?_⟩
    rw [Bool.and_eq_true]
    refine ⟨by simpa using hpend, List.all_eq_true.mpr ?_⟩
    intro a ha
    obtain ⟨hne, hr⟩ := (mem_ancestors_iff st.graph hg id a).mp ha
    rcases hanc a hne hr with h | h
    · simp [h]
    · simp [h]
theorem mapExcept_ok_mem_iff {α β : Type} {f : α → Except String β} {l : List α}
    {ys : List β} (h : mapExcept f l = .ok ys) (y : β) :
    y ∈ ys ↔ ∃ x ∈ l, f x = .ok y := by
  induction l generalizing ys with
  | nil =>
    rw [mapExcept] at h
    cases h
    simp
  | cons w t ih =>
    rw [mapExcept] at h
    cases hfw : f w with
    | error e => rw [hfw] at h; cases h
    | ok z =>
      rw [hfw] at h
      cases hrest : mapExcept f t with
      | error e => rw [hrest] at h; cases h
      | ok ys' =>
        rw [hrest] at h
        cases h
        constructor
        · intro hy
          rcases List.mem_cons.mp hy with rfl | hy'
          · exact ⟨w, List.mem_cons_self _ _, hfw⟩
          · obtain ⟨x, hx, hfx⟩ := (ih hrest).mp hy'
            exact ⟨x, List.mem_cons_of_mem _ hx, hfx⟩
        · rintro ⟨x, hx, hfx⟩
          rcases List.mem_cons.mp hx with rfl | hx'
          · rw [hfw] at hfx
            cases hfx
            exact List.mem_cons_self _ _
          · exact List.mem_cons_of_mem _ ((ih hrest).mpr ⟨x, hx', hfx⟩)

theorem mapExcept_ok_isEmpty {α β : Type} {f : α → Except String β} {l : List α}
    {ys : List β} (h : mapExcept f l = .ok ys) : ys.isEmpty = l.isEmpty := by
  cases l with
  | nil => simp only [mapExcept] at h; cases h; rfl
  | cons w t =>
    simp only [mapExcept] at h
    cases hfw : f w with
    | error e => rw [hfw] at h; cases h
    | ok z =>
      rw [hfw] at h
      cases hrest : mapExcept f t with
      | error e => rw [hrest] at h; cases h
      | ok ys' => rw [hrest] at h; cases h; rfl

theorem filter_isEmpty_iff_all {α : Type} (l : List α) (p : α → Bool) :
    (l.filter p).isEmpty = true ↔ ∀ x ∈ l, p x = false := by
  rw [List.isEmpty_iff, List.filter_eq_nil_iff]
  constructor
  · intro h x hx
    exact Bool.eq_false_iff.mpr (h x hx)
  · intro h x hx
    rw [h x hx]
    exact Bool.false_ne_true

theorem mapExcept_pair_map_fst (g : String → Option ResolvedNode) :
    ∀ (l : List (String × Status)) (nbs : List (Status × ResolvedNode)),
      mapExcept
          (fun e =>
            match g e.1 with
            | some n => Except.ok (e.2, n)
            | none => Except.error e.1) l = .ok nbs →
        nbs.map Prod.fst = l.map Prod.snd := by
  intro l
  induction l with
  | nil =>
    intro nbs h
    rw [mapExcept] at h
    cases h
    rfl
  | cons e t ih =>
    intro nbs h
    rw [mapExcept] at h
    cases hl : g e.1 with
    | none =>
      rw [hl] at h
      simp only at h
      cases h
    | some n =>
      rw [hl] at h
      simp only at h
      cases hrest : mapExcept
          (fun e =>
            match g e.1 with
            | some n => Except.ok (e.2, n)
            | none => Except.error e.1) t with
      | error er => rw [hrest] at h; cases h
      | ok ys =>
        rw [hrest] at h
        cases h
        simp only [List.map_cons, List.cons.injEq]
        exact ⟨trivial, ih ys hrest⟩

theorem nodesByStatus_ok (st : FlowState)
    (h : ∀ e ∈ st.statuses, (List.lookup e.1 st.flow.nodes).isSome = true) :
    ∃ nbs, nodesByStatus st = .ok nbs ∧ nbs.map Prod.fst = st.statuses.map Prod.snd := by
  have hall : ∀ e ∈ st.statuses, ∃ y,
      (match List.lookup e.1 st.flow.nodes with
        | some n => Except.ok (e.2, n)
        | none => Except.error e.1) = Except.ok (y : Status × ResolvedNode) := by
    intro e he
    obtain ⟨n, hn⟩ := Option.isSome_iff_exists.mp (h e he)
    exact ⟨(e.2, n), by rw [hn]⟩
  obtain ⟨nbs, hnbs⟩ := mapExcept_ok_of_all _ st.statuses hall
  exact ⟨nbs, hnbs, mapExcept_pair_map_fst (fun k => List.lookup k st.flow.nodes)
    st.statuses nbs hnbs⟩

theorem ready_nodes_ok (st : FlowState)
    (h : ∀ id ∈ st.graph.nodes, (List.lookup id st.flow.nodes).isSome = true) :
    ∃ ns, st.ready_nodes = .ok ns ∧
      ∀ n, n ∈ ns ↔ ∃ id ∈ readyIds st, List.lookup id st.flow.nodes = some n := by
  have hsub : ∀ id ∈ readyIds st, id ∈ st.graph.nodes := by
    intro id hid
    exact (List.mem_filter.mp hid).1
  have hall : ∀ id ∈ readyIds st, ∃ y,
      (match List.lookup id st.flow.nodes with
        | some n => Except.ok n
        | none => Except.error id) = Except.ok (y : ResolvedNode) := by
    intro id hid
    obtain ⟨n, hn⟩ := Option.isSome_iff_exists.mp (h id (hsub id hid))
    exact ⟨n, by rw [hn]⟩
  obtain ⟨ns, hns⟩ := mapExcept_ok_of_all _ (readyIds st) hall
  refine ⟨ns, hns, ?_⟩
  intro n
  rw [mapExcept_ok_mem_iff hns n]
  constructor
  · rintro ⟨id, hid, hfid⟩
    refine ⟨id, hid, ?_⟩
    cases hl : List.lookup id st.flow.nodes with
    | none => rw [hl] at hfid; cases hfid
    | some n' => rw [hl] at hfid; cases hfid; rfl
  · rintro ⟨id, hid, hl⟩
    exact ⟨id, hid, by rw [hl]⟩

theorem statusIds_isEmpty_iff (st : FlowState) (s : Status) :
    (statusIds st s).isEmpty = true ↔ ∀ e ∈ st.statuses, (e.2 == s) = false := by
  unfold statusIds
  rw [List.isEmpty_iff, List.map_eq_nil_iff, ← List.isEmpty_iff, filter_isEmpty_iff_all]

/-- On well-formed states the faithful `no_more_work_possible` never raises
and computes the total boolean version. -/
theorem no_more_work_possible_eq_ok (st : FlowState) (hwf : WellFormed st) :
    st.no_more_work_possible = .ok (noMoreWorkPossibleB st) := by
  unfold FlowState.no_more_work_possible noMoreWorkPossibleB
  by_cases hrep : hasRepeatingTrigger st.flow = true
  · simp only [if_pos hrep]
  · simp only [if_neg hrep]
    obtain ⟨nbs, hnbs, hmap⟩ := nodesByStatus_ok st hwf.2
    obtain ⟨ns, hns, -⟩ := ready_nodes_ok st hwf.1
    rw [hnbs, hns]
    show Except.ok (ns.isEmpty && _) = Except.ok _
    congr 1
    have hready : ns.isEmpty = (readyIds st).isEmpty := mapExcept_ok_isEmpty hns
    have hfilter : ∀ s : Status,
        (nbs.filter fun e => e.1 == s).isEmpty = (statusIds st s).isEmpty := by
      intro s
      have hiff : (nbs.filter fun e => e.1 == s).isEmpty = true ↔
          (statusIds st s).isEmpty = true := by
        rw [filter_isEmpty_iff_all, statusIds_isEmpty_iff]
        constructor
        · intro h e he
          have : e.2 ∈ nbs.map Prod.fst := by
            rw [hmap]
            exact List.mem_map.mpr ⟨e, he, rfl⟩
          obtain ⟨x, hx, hx2⟩ := List.mem_map.mp this
          have := h x hx
          rw [hx2] at this
          exact this
        · intro h x hx
          have : x.1 ∈ st.statuses.map Prod.snd := by
            rw [← hmap]
            exact List.mem_map.mpr ⟨x, hx, rfl⟩
          obtain ⟨e, he, he2⟩ := List.mem_map.mp this
          rw [← he2]
          exact h e he
      cases hb : (nbs.filter fun e => e.1 == s).isEmpty with
      | true => exact (hiff.mp hb).symm
      | false =>
        cases hb' : (statusIds st s).isEmpty with
        | true => rw [hb] at hiff; exact absurd (hiff.mpr hb') Bool.false_ne_true
        | false => rfl
    rw [hready, hfilter Status.Running, hfilter Status.Starting]

/-! ### `from_flow` characterization -/

theorem from_flow_eq_ok (flow : ResolvedFlow) (h : findCycle (afterGraph flow) = none) :
    FlowState.from_flow flow =
      .ok { graph := afterGraph flow, flow := flow,
            statuses := (afterGraph flow).nodes.map fun id => (id, Status.Pending) } := by
  unfold FlowState.from_flow
  simp only [h]

theorem from_flow_eq_error (flow : ResolvedFlow) (c : List String)
    (h : findCycle (afterGraph flow) = some c) :
    FlowState.from_flow flow = .error c := by
  unfold FlowState.from_flow
  simp only [h]

theorem from_flow_ok_inv (flow : ResolvedFlow) (st : FlowState)
    (h : FlowState.from_flow flow = .ok st) :
    findCycle (afterGraph flow) = none ∧
      st = { graph := afterGraph flow, flow := flow,
             statuses := (afterGraph flow).nodes.map fun id => (id, Status.Pending) } := by
  unfold FlowState.from_flow at h
  cases hfc : findCycle (afterGraph flow) with
  | some c => rw [hfc] at h; cases h
  | none =>
    rw [hfc] at h
    cases h
    exact ⟨rfl, rfl⟩

theorem from_flow_error_inv (flow : ResolvedFlow) (c : List String)
    (h : FlowState.from_flow flow = .error c) :
    findCycle (afterGraph flow) = some c := by
  unfold FlowState.from_flow at h
  cases hfc : findCycle (afterGraph flow) with
  | some c' => rw [hfc] at h; cases h; rfl
  | none => rw [hfc] at h; cases h

/-- Flow-level well-formedness: every id named by an `After` trigger is a
key of the flow's node dict. -/
def FlowWellFormed (flow : ResolvedFlow) : Prop :=
  ∀ en ∈ flow.nodes, ∀ t ∈ en.2.triggers, ∀ ps, t = Trigger.After ps →
    ∀ p ∈ ps, (List.lookup p flow.nodes).isSome = true

theorem from_flow_wellFormed (flow : ResolvedFlow) (hrefs : FlowWellFormed flow)
    (st : FlowState) (h : FlowState.from_flow flow = .ok st) : WellFormed st := by
  obtain ⟨-, rfl⟩ := from_flow_ok_inv flow st h
  have hnodes : ∀ id ∈ (afterGraph flow).nodes, (List.lookup id flow.nodes).isSome = true := by
    intro id hid
    rcases (mem_afterGraph_nodes_iff flow id).mp hid with ⟨en, hen, rfl⟩ | ⟨en, hen, t, ht, ps, rfl, hp⟩
    · rw [lookup_isSome_iff]
      exact List.mem_map.mpr ⟨en, hen, rfl⟩
    · exact hrefs en hen _ ht ps rfl id hp
  constructor
  · exact hnodes
  · intro e he
    obtain ⟨id, hid, heq⟩ := List.mem_map.mp he
    rw [← heq]
    exact hnodes id hid
/-! ## Messages (`messages.py`)

Fields the dispatch never consults (pid, duration, watch change sets, the
Debug node) are omitted or simplified; the dispatch in
`Orchestrator.handle_messages` matches only on the variant and uses the
node and the exit code. -/

inductive Message where
  | ExecutionStarted (node : ResolvedNode)
  | ExecutionOutput (node : ResolvedNode) (text : String)
  | ExecutionCompleted (node : ResolvedNode) (exitCode : Int)
  | WatchPathChanged (node : ResolvedNode)
  | Heartbeat
  | Quit
  | Debug (text : String)
deriving DecidableEq, Repr

/-! ## Orchestrator (`orchestrator.py`)

The orchestrator state holds the flow state, the executions map (id to
`has_exited`, the only execution attribute the loop consults), the timer
bookkeeping, the current values of the `handle_messages` loop locals, and
the inbox queue.  The renderer performs no state changes and is omitted.

Timer modelling.  `waiting_to_pending` is a closure over the
`handle_messages` locals `node` and `handle`: one cell each for the whole
loop, rebound by every later node-carrying `case` dispatch and by every
later `call_later` scheduling.  The closure therefore consults the values
current at *firing* time, not the values at scheduling time.  The state
carries those cells explicitly (`nodeBinding`, `handleBinding`).  Timer
handles are opaque and numbered by `nextTimer`; `scheduledTimers` holds the
outstanding `call_later` timers (handle and delay — each fires exactly
once, and `discard` on the tracking set does not cancel it), while
`restartTimers` is the `self.restart_timers` tracking set of handles. -/

structure OrchState where
  state : FlowState
  executions : List (String × Bool)
  scheduledTimers : List (Nat × Rat)
  restartTimers : List Nat
  nextTimer : Nat
  nodeBinding : Option ResolvedNode
  handleBinding : Option Nat
  inbox : List Message
deriving DecidableEq, Repr

/-- Dispatch of `ExecutionStarted`: `mark_running(node)`, unconditionally. -/
def handleStarted (s : OrchState) (node : ResolvedNode) : OrchState :=
  { s with state := s.state.mark [node.id] Status.Running }

/-- Dispatch of `ExecutionCompleted`: if the status is not Pending, the first
`Restart` trigger (if any) moves the node to Waiting and schedules a timer,
unless it is already Waiting; with no `Restart` trigger the exit code decides
Succeeded or Failed.  In all cases the graph successors are marked Pending
afterwards. -/
def handleCompleted (s : OrchState) (node : ResolvedNode) (exitCode : Int) : OrchState :=
  let s1 :=
    if statusOf s.state node.id ≠ Status.Pending then
      match firstRestartDelay node.triggers with
      | some d =>
        if statusOf s.state node.id ≠ Status.Waiting then
          { s with
            state := s.state.mark [node.id] Status.Waiting
            scheduledTimers := s.scheduledTimers ++ [(s.nextTimer, d)]
            restartTimers := s.restartTimers ++ [s.nextTimer]
            handleBinding := some s.nextTimer
            nextTimer := s.nextTimer + 1 }
        else s
      | none =>
        if exitCode == 0 then { s with state := s.state.mark [node.id] Status.Succeeded }
        else { s with state := s.state.mark [node.id] Status.Failed }
    else s
  { s1 with state := s1.state.mark (s1.state.graph.successors node.id) Status.Pending }

/-- Dispatch of `WatchPathChanged`: only when an execution exists for the
node, terminate it (an external signal, no orchestrator-state change) and
mark the node Pending. -/
def handleWatchChanged (s : OrchState) (node : ResolvedNode) : OrchState :=
  match List.lookup node.id s.executions with
  | some _ => { s with state := s.state.mark [node.id] Status.Pending }
  | none => s

/-- The dispatch `match` of `handle_messages` (all state-changing cases
except `Quit`, which returns from the loop and is handled in
`handleMessage`).  A node-carrying `case` pattern rebinds the loop local
`node` whenever it matches, even when the case body does nothing. -/
def dispatchOne (s : OrchState) (m : Message) : OrchState :=
  match m with
  | .ExecutionStarted node => handleStarted { s with nodeBinding := some node } node
  | .ExecutionCompleted node code => handleCompleted { s with nodeBinding := some node } node code
  | .WatchPathChanged node => handleWatchChanged { s with nodeBinding := some node } node
  | _ => s

/-- The body of `start_ready_targets` for one ready node: mark Starting,
spawn the execution (fresh `has_exited = false` entry) and enqueue its
`ExecutionStarted` event (`Execution.start` emits it before returning).  The
flow lookup cannot fail for ids produced by `ready_nodes`. -/
def startNode (s : OrchState) (id : String) : OrchState :=
  match List.lookup id s.state.flow.nodes with
  | some node =>
    { s with
      state := s.state.mark [id] Status.Starting
      executions := setKey s.executions id false
      inbox := s.inbox ++ [Message.ExecutionStarted node] }
  | none => s

/-- One `start_ready_targets` loop iteration: skip the node when a live (not
yet exited) execution exists, otherwise start it. -/
def startReadyStep (s : OrchState) (id : String) : OrchState :=
  match List.lookup id s.executions with
  | some hasExited => if hasExited then startNode s id else s
  | none => startNode s id

/-- Model of `Orchestrator.start_ready_targets`: iterate over the ready set computed
once up front. -/
def startReady (s : OrchState) : OrchState :=
  (readyIds s.state).foldl startReadyStep s

/-- The body of the `waiting_to_pending` timer callback.  It late-binds the
`handle_messages` locals: it consults the *currently bound* `node` (the node
of the most recent node-carrying dispatch — not necessarily the node whose
completion scheduled this timer) and discards the *currently bound* `handle`
(the most recently scheduled one) from the tracking set.  The `none`
branches are unreachable in runs (a timer exists only after an
`ExecutionCompleted` dispatch bound `node` and a scheduling bound
`handle`). -/
def fireCallback (s : OrchState) : OrchState :=
  match s.nodeBinding with
  | none => s
  | some node =>
    let s1 :=
      if statusOf s.state node.id = Status.Waiting then
        { s with state := s.state.mark [node.id] Status.Pending }
      else s
    match s1.handleBinding with
    | none => s1
    | some h => { s1 with restartTimers := s1.restartTimers.filter fun t => t != h }

/-- A scheduled timer fires: the `call_later` handle is consumed (each
callback runs exactly once; `discard` on the tracking set does not cancel
it), then the `waiting_to_pending` body runs on the current bindings. -/
def fireTimer (s : OrchState) (tid : Nat) : OrchState :=
  fireCallback { s with scheduledTimers := s.scheduledTimers.filter fun t => t.1 != tid }

/-- One iteration of the `handle_messages` loop for a dequeued message:
`Quit` returns exit code 0; otherwise dispatch, run `start_ready_targets`,
(renderer call omitted — no state change) and return an exit code iff
`no_more_work_possible()` holds: 0 when `all_succeeded()`, else 1. -/
def handleMessage (s : OrchState) (m : Message) : Except Int OrchState :=
  match m with
  | .Quit => .error 0
  | _ =>
    let s2 := startReady (dispatchOne s m)
    if noMoreWorkPossibleB s2.state then
      .error (if s2.state.all_succeeded then 0 else 1)
    else .ok s2

/-! ## The event system

Environment events (subprocess exits, watcher batches, timer fires, SIGINT,
heartbeats) race with the dispatch loop; each is a step of this relation.
`sysStep` returns `none` when the event is not enabled in the given state. -/

inductive SysEvent where
  | dispatch
  | initialStart
  | complete (id : String) (exitCode : Int)
  | watchFire (id : String)
  | timerFire (tid : Nat)
  | sigint
  | heartbeatTick
deriving DecidableEq, Repr

structure SysState where
  orch : OrchState
  started : Bool
  result : Option Int
deriving DecidableEq, Repr

/-- System transition.  `initialStart` is the pre-loop `start_ready_targets`
call of `Orchestrator.run` (watchers are already live before it, so
`watchFire` is enabled from the very beginning); `dispatch` consumes the
head of the inbox inside the loop; `complete` is a live child exiting (its
waiter enqueues `ExecutionCompleted` after draining output); `watchFire`
enqueues a `WatchPathChanged` batch for a watched node; `timerFire` runs a
scheduled restart-timer callback; `sigint` enqueues `Quit` (the handler is
installed at loop entry). -/
def sysStep (s : SysState) (e : SysEvent) : Option SysState :=
  if s.result.isSome then none
  else
    match e with
    | .initialStart =>
      if s.started then none
      else some { s with orch := startReady s.orch, started := true }
    | .dispatch =>
      if s.started then
        match s.orch.inbox with
        | [] => none
        | m :: rest =>
          let s1 := { s.orch with inbox := rest }
          match handleMessage s1 m with
          | .error c => some { orch := s1, started := true, result := some c }
          | .ok o => some { orch := o, started := true, result := none }
      else none
    | .complete id code =>
      match List.lookup id s.orch.executions with
      | some false =>
        match List.lookup id s.orch.state.flow.nodes with
        | some node =>
          some { s with orch :=
            { s.orch with
              executions := setKey s.orch.executions id true
              inbox := s.orch.inbox ++ [Message.ExecutionCompleted node code] } }
        | none => none
      | _ => none
    | .watchFire id =>
      match List.lookup id s.orch.state.flow.nodes with
      | some node =>
        if node.triggers.any Trigger.isWatch then
          some { s with orch :=
            { s.orch with inbox := s.orch.inbox ++ [Message.WatchPathChanged node] } }
        else none
      | none => none
    | .timerFire tid =>
      if s.orch.scheduledTimers.any (fun t => t.1 == tid) then
        some { s with orch := fireTimer s.orch tid }
      else none
    | .sigint =>
      if s.started then
        some { s with orch := { s.orch with inbox := s.orch.inbox ++ [Message.Quit] } }
      else none
    | .heartbeatTick =>
      some { s with orch := { s.orch with inbox := s.orch.inbox ++ [Message.Heartbeat] } }

/-- The system state at the start of `Orchestrator.run`: fails for cyclic
flows (`FlowState.from_flow` raises in `Orchestrator.__init__`, so no run —
and hence no `Execution` — ever exists) and for empty flows (`run` returns 0
before starting anything). -/
def initSystem (flow : ResolvedFlow) : Option SysState :=
  match FlowState.from_flow flow with
  | .error _ => none
  | .ok st =>
    if flow.nodes.isEmpty then none
    else some
      { orch :=
          { state := st, executions := [], scheduledTimers := [], restartTimers := []
            nextTimer := 0, nodeBinding := none, handleBinding := none, inbox := [] }
        started := false
        result := none }

def runEvents (s : SysState) (es : List SysEvent) : Option SysState :=
  es.foldlM sysStep s

/-- Claim I1 as stated: in no reachable run does a node's status move
directly from Pending to Running in one step. -/
def NoPendingToRunning (flow : ResolvedFlow) : Prop :=
  ∀ s₀ es s e s' id, initSystem flow = some s₀ → runEvents s₀ es = some s →
    sysStep s e = some s' →
    ¬(statusOf s.orch.state id = Status.Pending ∧ statusOf s'.orch.state id = Status.Running)

/-! ## CLI (`cli.py`, `run`, from flow selection onward) -/

inductive CliResult where
  | exited (code : Int)
  | ran (st : FlowState)
deriving DecidableEq, Repr

/-- Constructing the `Orchestrator` raises `CyclicFlowDetected` for cyclic
flows; the CLI prints the cycle path and exits 1 without running the engine
(no `Execution` is ever spawned: no orchestrator state exists).  Otherwise
the engine runs on the fresh flow state. -/
def cliRun (flow : ResolvedFlow) : CliResult :=
  match FlowState.from_flow flow with
  | .error _ => CliResult.exited 1
  | .ok st => CliResult.ran st

/-! ## Execution signalling (`execution.py`) -/

/-- The only execution attribute `_send_signal` consults:
`has_exited` (`process.returncode is not None`). -/
structure Execution where
  hasExited : Bool
deriving DecidableEq, Repr

inductive Sig where
  | SIGTERM
  | SIGKILL
deriving DecidableEq, Repr

/-- Model of `Execution._send_signal`: a no-op when the child has exited; otherwise
sends the signal to the child's process group, swallowing
`ProcessLookupError` when the group vanished meanwhile (`pgAlive = false`).
The list holds the signals actually delivered; the function never touches
the event queue. -/
def Execution.sendSignal (e : Execution) (pgAlive : Bool) (sig : Sig) : Execution × List Sig :=
  if e.hasExited then (e, [])
  else if pgAlive then (e, [sig]) else (e, [])

/-- Model of `Execution.terminate`: SIGTERM via `_send_signal`. -/
def Execution.terminate (e : Execution) (pgAlive : Bool) : Execution × List Sig :=
  e.sendSignal pgAlive Sig.SIGTERM

/-- Model of `Execution.kill`: SIGKILL via `_send_signal`. -/
def Execution.kill (e : Execution) (pgAlive : Bool) : Execution × List Sig :=
  e.sendSignal pgAlive Sig.SIGKILL

/-! ## Output reader (`execution.py`, `read_output`) -/

/-- One result of `await process.stdout.readline()`: a complete line (with
its trailing newline; the empty string signals EOF), or the `ValueError`
raised on `LimitOverrunError` when a line exceeds the 1 MiB buffer — in that
case asyncio has dropped the buffered bytes of the offending line. -/
inductive ReadEvent where
  | line (text : String)
  | overflow
deriving DecidableEq, Repr

/-- The events `read_output` emits. -/
inductive OutMessage where
  | ExecutionOutput (node : String) (text : String)
  | Debug (node : String)
deriving DecidableEq, Repr

/-- Python `str` whitespace (ASCII part; the unicode extras are irrelevant
here). -/
def pyWhitespace (c : Char) : Bool :=
  ([' ', '\t', '\n', '\r', '\x0b', '\x0c'] : List Char).contains c

/-- Python `str.rstrip()`: drop all trailing whitespace characters. -/
def pyRstrip (s : String) : String :=
  String.mk ((s.data.reverse.dropWhile pyWhitespace).reverse)

/-- Model of `read_output`: read line-by-line; on overflow emit a `Debug` event and
continue; stop at EOF (empty read); otherwise emit one `ExecutionOutput`
with the `rstrip`-ed decoded line. -/
def read_output (node : String) : List ReadEvent → List OutMessage
  | [] => []
  | .overflow :: rest => OutMessage.Debug node :: read_output node rest
  | .line l :: rest =>
    if l = "" then []
    else OutMessage.ExecutionOutput node (pyRstrip l) :: read_output node rest

/-- What the specification's words prescribe for a complete line: strip the
trailing newline and nothing else.  Stated only to compare against the
source's `rstrip`. -/
def stripTrailingNewline (s : String) : String :=
  if s.data.getLast? = some '\x0a' then String.mk s.data.dropLast else s
/-! ## Helper lemmas for the claim theorems -/

theorem once_triggers_filter (n : ResolvedNode) :
    n.once = { n with triggers :=
      if (n.triggers.filter Trigger.isOnceOrAfter).isEmpty then [Trigger.Once]
      else n.triggers.filter Trigger.isOnceOrAfter } := rfl

theorem once_idem (n : ResolvedNode) : n.once.once = n.once := by
  by_cases h : (n.triggers.filter Trigger.isOnceOrAfter).isEmpty
  · have h1 : n.once = { n with triggers := [Trigger.Once] } := by
      rw [once_triggers_filter, if_pos h]
    rw [h1, once_triggers_filter]
    rfl
  · have h1 : n.once = { n with triggers := n.triggers.filter Trigger.isOnceOrAfter } := by
      rw [once_triggers_filter, if_neg h]
    rw [h1, once_triggers_filter]
    dsimp only
    rw [List.filter_eq_self.mpr fun a ha => List.of_mem_filter ha, if_neg h]

instance {ε α : Type} [DecidableEq ε] [DecidableEq α] : DecidableEq (Except ε α) :=
  fun x y =>
    match x, y with
    | .error a, .error b =>
      if h : a = b then .isTrue (by rw [h]) else .isFalse (by intro hc; cases hc; exact h rfl)
    | .ok a, .ok b =>
      if h : a = b then .isTrue (by rw [h]) else .isFalse (by intro hc; cases hc; exact h rfl)
    | .error a, .ok b => .isFalse (by intro hc; cases hc)
    | .ok a, .error b => .isFalse (by intro hc; cases hc)

/-! ## Claim theorems -/

/-- Claim C8: the `once` coercion replaces every node's trigger set with the
subset of `Once`/`After` triggers, defaulting to `[Once]` when that subset is
empty, and is idempotent: `flow.once().once() = flow.once()`. -/
theorem c8_once_coercion :
    (∀ (f : ResolvedFlow) (id : String) (n : ResolvedNode),
        List.lookup id f.nodes = some n →
          List.lookup id f.once.nodes = some
            { n with triggers :=
                if (n.triggers.filter Trigger.isOnceOrAfter).isEmpty then [Trigger.Once]
                else n.triggers.filter Trigger.isOnceOrAfter }) ∧
      ∀ f : ResolvedFlow, f.once.once = f.once := by
  constructor
  · intro f id n h
    show List.lookup id (f.nodes.map fun e => (e.1, e.2.once)) = _
    rw [lookup_map_snd, h]
    show some n.once = _
    rw [once_triggers_filter n]
  · intro f
    show ResolvedFlow.mk _ _ _ = ResolvedFlow.mk _ _ _
    congr 1
    show ((f.nodes.map fun e => (e.1, e.2.once)).map fun e => (e.1, e.2.once)) = _
    rw [List.map_map]
    apply List.map_congr_left
    intro e _
    show (e.1, e.2.once.once) = (e.1, e.2.once)
    rw [once_idem]

/-- Witness for C8 at a concrete flow. -/
theorem c8_once_coercion_witness :
    List.lookup "r"
        ({ nodes := [("r",
            { id := "r"
              target := { commands := "", args := [], envs := [], executable := "sh -eu" }
              args := [], envs := []
              triggers := [Trigger.Restart 1]
              color := "" })], args := [], envs := [] } : ResolvedFlow).once.nodes =
      some
        { id := "r"
          target := { commands := "", args := [], envs := [], executable := "sh -eu" }
          args := [], envs := []
          triggers := [Trigger.Once]
          color := "" } := by
  have h := c8_once_coercion.1
    { nodes := [("r",
        { id := "r"
          target := { commands := "", args := [], envs := [], executable := "sh -eu" }
          args := [], envs := []
          triggers := [Trigger.Restart 1]
          color := "" })], args := [], envs := [] }
    "r"
    { id := "r"
      target := { commands := "", args := [], envs := [], executable := "sh -eu" }
      args := [], envs := []
      triggers := [Trigger.Restart 1]
      color := "" }
    (by decide)
  exact h

/-- Claim C9: when the child has exited, `terminate()` and `kill()` send no
signal, change no state and emit no events (`_send_signal` returns at once);
repeated calls in any order remain no-ops. -/
theorem c9_signal_after_exit (e : Execution) (pg pg' : Bool)
    (h : e.hasExited = true) :
    e.terminate pg = (e, []) ∧ e.kill pg = (e, []) ∧
      (e.terminate pg).1.kill pg' = (e, []) ∧ (e.kill pg).1.terminate pg' = (e, []) := by
  simp [Execution.terminate, Execution.kill, Execution.sendSignal, h]

/-- Witness for C9 at a concrete exited execution. -/
theorem c9_signal_after_exit_witness :
    Execution.terminate { hasExited := true } true = ({ hasExited := true }, []) ∧
      Execution.kill { hasExited := true } true = ({ hasExited := true }, []) ∧
      (Execution.terminate { hasExited := true } true).1.kill false
        = ({ hasExited := true }, []) ∧
      (Execution.kill { hasExited := true } true).1.terminate false
        = ({ hasExited := true }, []) :=
  c9_signal_after_exit { hasExited := true } true false (by decide)

/-- Counterexample for C7 as stated: the source applies Python `rstrip()`,
which strips all trailing whitespace, not only the newline: the line
`"hi \n"` is emitted as `"hi"`, while stripping just the newline would give
`"hi "`. -/
theorem c7_counterexample :
    read_output "n" [ReadEvent.line "hi \x0a"] = [OutMessage.ExecutionOutput "n" "hi"] ∧
      stripTrailingNewline "hi \x0a" = "hi " ∧ ("hi" : String) ≠ "hi " := by
  refine ⟨by decide, by decide, by decide⟩

/-- Claim C7, amended: for every complete line the reader emits exactly one
`ExecutionOutput` whose text is the decoded line with all trailing
whitespace (in particular the newline) stripped, Python `rstrip()` style; on
buffer overflow it emits exactly one `Debug` event and no output event for
the dropped bytes, then resumes; reading stops at EOF. -/
theorem c7_read_output (node : String) (stream : List ReadEvent) :
    read_output node stream =
      (stream.takeWhile fun e => e != ReadEvent.line "").map fun e =>
        match e with
        | ReadEvent.overflow => OutMessage.Debug node
        | ReadEvent.line l => OutMessage.ExecutionOutput node (pyRstrip l) := by
  induction stream with
  | nil => rfl
  | cons e rest ih =>
    cases e with
    | overflow =>
      have hne : (ReadEvent.overflow != ReadEvent.line "") = true := by decide
      rw [read_output, List.takeWhile_cons, hne]
      simp only [if_true, List.map_cons, ih]
    | line l =>
      by_cases h : l = ""
      · subst h
        have hne : (ReadEvent.line "" != ReadEvent.line "") = false := by decide
        rw [read_output, List.takeWhile_cons, hne]
        simp
      · have hne : (ReadEvent.line l != ReadEvent.line "") = true := by
          simpa [bne_iff_ne] using h
        rw [read_output, List.takeWhile_cons, hne]
        simp only [if_pos, List.map_cons, if_neg h, ih]
/-- Claim C4: cyclic flows make flow-state construction fail with
`CyclicFlow` carrying a genuine cycle of the `After` graph, the CLI exits 1
and no engine run (hence no `Execution`) ever exists; acyclic flows build a
state with every node Pending. -/
theorem c4_cyclic_flow (flow : ResolvedFlow) :
    (∀ c, FlowState.from_flow flow = .error c →
        IsCycle (afterGraph flow) c ∧ cliRun flow = CliResult.exited 1 ∧
          initSystem flow = none) ∧
      ((∃ c, IsCycle (afterGraph flow) c) → ∃ e, FlowState.from_flow flow = .error e) ∧
      ((¬∃ c, IsCycle (afterGraph flow) c) →
        ∃ st, FlowState.from_flow flow = .ok st ∧
          ∀ id ∈ st.graph.nodes, List.lookup id st.statuses = some Status.Pending) := by
  refine ⟨?_, ?_, ?_⟩
  · intro c hc
    have hfc := from_flow_error_inv flow c hc
    refine ⟨findCycle_sound _ c hfc, ?_, ?_⟩
    · unfold cliRun
      rw [hc]
    · unfold initSystem
      rw [hc]
  · rintro ⟨c, hc⟩
    obtain ⟨c', hc'⟩ := findCycle_complete (afterGraph flow) (afterGraph_closed flow) c hc
    exact ⟨c', from_flow_eq_error flow c' hc'⟩
  · intro hnone
    have hfc : findCycle (afterGraph flow) = none := by
      cases hfc : findCycle (afterGraph flow) with
      | none => rfl
      | some c => exact absurd ⟨c, findCycle_sound _ c hfc⟩ hnone
    refine ⟨_, from_flow_eq_ok flow hfc, ?_⟩
    intro id hid
    rw [lookup_map_const]
    rw [if_pos hid]

/-- Witness for C4: the cyclic flow of scenario S3 (`After` edges a to b to c
back to a) and a two-node acyclic chain. -/
def flowCyc : ResolvedFlow :=
  { nodes :=
      [("a", { id := "a", target := { commands := "", args := [], envs := [], executable := "sh -eu" },
               args := [], envs := [], triggers := [Trigger.After ["c"]], color := "" }),
       ("b", { id := "b", target := { commands := "", args := [], envs := [], executable := "sh -eu" },
               args := [], envs := [], triggers := [Trigger.After ["a"]], color := "" }),
       ("c", { id := "c", target := { commands := "", args := [], envs := [], executable := "sh -eu" },
               args := [], envs := [], triggers := [Trigger.After ["b"]], color := "" })]
    args := [], envs := [] }

def flowLin : ResolvedFlow :=
  { nodes :=
      [("a", { id := "a", target := { commands := "", args := [], envs := [], executable := "sh -eu" },
               args := [], envs := [], triggers := [Trigger.Once], color := "" }),
       ("b", { id := "b", target := { commands := "", args := [], envs := [], executable := "sh -eu" },
               args := [], envs := [], triggers := [Trigger.After ["a"]], color := "" })]
    args := [], envs := [] }

theorem c4_cyclic_flow_witness :
    (IsCycle (afterGraph flowCyc) ["a", "b", "c"] ∧
        cliRun flowCyc = CliResult.exited 1 ∧ initSystem flowCyc = none) ∧
      ∃ st, FlowState.from_flow flowLin = .ok st ∧
        ∀ id ∈ st.graph.nodes, List.lookup id st.statuses = some Status.Pending := by
  constructor
  · exact (c4_cyclic_flow flowCyc).1 ["a", "b", "c"] (by decide)
  · refine (c4_cyclic_flow flowLin).2.2 ?_
    rintro ⟨c, hc⟩
    obtain ⟨c', hc'⟩ := findCycle_complete (afterGraph flowLin) (afterGraph_closed flowLin) c hc
    rw [show findCycle (afterGraph flowLin) = none by decide] at hc'
    cases hc'
theorem chain_last_edge (g : Graph) :
    ∀ (p : List String) (a u : String),
      List.Chain (fun x y => g.edgeB x y = true) a (p ++ [u]) →
        ∃ x, g.edgeB x u = true := by
  intro p
  induction p with
  | nil =>
    intro a u h
    exact ⟨a, (List.chain_cons.mp h).1⟩
  | cons b p' ih =>
    intro a u h
    rw [List.cons_append] at h
    exact ih b u (List.chain_cons.mp h).2

/-- Claim C3: `ready_nodes()` returns exactly the Pending nodes all of whose
ancestors (all nodes with a path to them, in particular all direct `After`
predecessors) are Succeeded or Waiting. -/
theorem c3_ready_nodes (st : FlowState) (hg : EdgesClosed st.graph)
    (hwf : ∀ id ∈ st.graph.nodes, (List.lookup id st.flow.nodes).isSome = true)
    (hkeys : ∀ e ∈ st.flow.nodes, e.2.id = e.1) :
    ∃ ns, st.ready_nodes = .ok ns ∧
      (∀ (id : String) (n : ResolvedNode), List.lookup id st.flow.nodes = some n →
        (n ∈ ns ↔
          id ∈ st.graph.nodes ∧ statusOf st id = Status.Pending ∧
            ∀ a, a ≠ id → Reaches st.graph a id →
              (statusOf st a = Status.Succeeded ∨ statusOf st a = Status.Waiting))) ∧
      ∀ id ∈ readyIds st, ∀ p, st.graph.edgeB p id = true → p ≠ id →
        (statusOf st p = Status.Succeeded ∨ statusOf st p = Status.Waiting) := by
  obtain ⟨ns, hns, hmem⟩ := ready_nodes_ok st hwf
  refine ⟨ns, hns, ?_, ?_⟩
  · intro id n hn
    rw [hmem n]
    constructor
    · rintro ⟨id', hid', hn'⟩
      have h1 : n.id = id' := hkeys (id', n) (lookup_mem hn')
      have h2 : n.id = id := hkeys (id, n) (lookup_mem hn)
      have heq : id' = id := by rw [← h1, h2]
      subst heq
      exact (mem_readyIds_iff st hg id').mp hid'
    · intro hcond
      exact ⟨id, (mem_readyIds_iff st hg id).mpr hcond, hn⟩
  · intro id hid p hedge hne
    have hc := (mem_readyIds_iff st hg id).mp hid
    refine hc.2.2 p hne ⟨[], ?_⟩
    rw [List.nil_append]
    exact List.chain_cons.mpr ⟨hedge, List.Chain.nil⟩

/-- Concrete flow state for the C3 witness: chain `a` then `b = After(a)`,
with `a` already Succeeded. -/
def stLin : FlowState :=
  { graph := afterGraph flowLin, flow := flowLin
    statuses := [("a", Status.Succeeded), ("b", Status.Pending)] }

theorem c3_ready_nodes_witness :
    ∃ ns, stLin.ready_nodes = .ok ns ∧
      (∀ (id : String) (n : ResolvedNode), List.lookup id stLin.flow.nodes = some n →
        (n ∈ ns ↔
          id ∈ stLin.graph.nodes ∧ statusOf stLin id = Status.Pending ∧
            ∀ a, a ≠ id → Reaches stLin.graph a id →
              (statusOf stLin a = Status.Succeeded ∨ statusOf stLin a = Status.Waiting))) ∧
      ∀ id ∈ readyIds stLin, ∀ p, stLin.graph.edgeB p id = true → p ≠ id →
        (statusOf stLin p = Status.Succeeded ∨ statusOf stLin p = Status.Waiting) :=
  c3_ready_nodes stLin (afterGraph_closed flowLin) (by decide) (by decide)

/-- Claim C10: an `After` reference to an id that is not a flow key still
lets `from_flow` succeed (for otherwise-acyclic flows); the unknown id gets
status Pending (it became a graph node through the added edge), and the very
next `ready_nodes()` call raises `KeyError` at an unknown id, which — having
no in-edges — is Pending with no ancestors and so passes the filter into the
failing `flow.nodes[id]` lookup. -/
theorem c10_unknown_after_ref (flow : ResolvedFlow)
    (hacyc : ¬∃ c, IsCycle (afterGraph flow) c)
    (en : String × ResolvedNode) (hen : en ∈ flow.nodes)
    (t : Trigger) (ht : t ∈ en.2.triggers) (ps : List String) (hps : t = Trigger.After ps)
    (u : String) (hu : u ∈ ps) (hmiss : List.lookup u flow.nodes = none) :
    ∃ st, FlowState.from_flow flow = .ok st ∧
      List.lookup u st.statuses = some Status.Pending ∧
      ∃ u', st.ready_nodes = .error u' ∧ List.lookup u' st.flow.nodes = none := by
  have hfc : findCycle (afterGraph flow) = none := by
    cases hfc : findCycle (afterGraph flow) with
    | none => rfl
    | some c => exact absurd ⟨c, findCycle_sound _ c hfc⟩ hacyc
  have hugr : u ∈ (afterGraph flow).nodes :=
    (mem_afterGraph_nodes_iff flow u).mpr (Or.inr ⟨en, hen, t, ht, ps, hps, hu⟩)
  refine ⟨{ graph := afterGraph flow, flow := flow
            statuses := (afterGraph flow).nodes.map fun id => (id, Status.Pending) },
    from_flow_eq_ok flow hfc, ?_, ?_⟩
  · show List.lookup u ((afterGraph flow).nodes.map fun id => (id, Status.Pending))
        = some Status.Pending
    rw [lookup_map_const, if_pos hugr]
  · have hstu : statusOf
        { graph := afterGraph flow, flow := flow
          statuses := (afterGraph flow).nodes.map fun id => (id, Status.Pending) } u
        = Status.Pending := by
      unfold statusOf
      show (List.lookup u ((afterGraph flow).nodes.map fun id => (id, Status.Pending))).getD _
          = Status.Pending
      rw [lookup_map_const, if_pos hugr]
      rfl
    have hready : u ∈ readyIds
        { graph := afterGraph flow, flow := flow
          statuses := (afterGraph flow).nodes.map fun id => (id, Status.Pending) } := by
      refine (mem_readyIds_iff _ (afterGraph_closed flow) u).mpr ⟨hugr, hstu, ?_⟩
      intro a hne hr
      exfalso
      obtain ⟨p, hchain⟩ := hr
      obtain ⟨x, hx⟩ := chain_last_edge (afterGraph flow) p a u hchain
      have := afterGraph_edge_target_isSome flow x u hx
      rw [hmiss] at this
      simp at this
    obtain ⟨e, herr, x, hx, hfx⟩ := mapExcept_isError_of_ex
      (fun id =>
        match List.lookup id flow.nodes with
        | some n => Except.ok n
        | none => Except.error id)
      (readyIds
        { graph := afterGraph flow, flow := flow
          statuses := (afterGraph flow).nodes.map fun id => (id, Status.Pending) })
      ⟨u, hready, fun y => by
        show (match List.lookup u flow.nodes with
              | some n => Except.ok n
              | none => Except.error u) ≠ Except.ok y
        rw [hmiss]
        intro hc
        cases hc⟩
    refine ⟨e, herr, ?_⟩
    cases hlx : List.lookup x flow.nodes with
    | some n => rw [hlx] at hfx; cases hfx
    | none =>
      rw [hlx] at hfx
      cases hfx
      exact hlx

def flowGhost : ResolvedFlow :=
  { nodes :=
      [("a", { id := "a", target := { commands := "", args := [], envs := [], executable := "sh -eu" },
               args := [], envs := [], triggers := [Trigger.After ["ghost"]], color := "" })]
    args := [], envs := [] }

theorem c10_unknown_after_ref_witness :
    ∃ st, FlowState.from_flow flowGhost = .ok st ∧
      List.lookup "ghost" st.statuses = some Status.Pending ∧
      ∃ u', st.ready_nodes = .error u' ∧ List.lookup u' st.flow.nodes = none := by
  refine c10_unknown_after_ref flowGhost ?_
    ("a", { id := "a", target := { commands := "", args := [], envs := [], executable := "sh -eu" },
            args := [], envs := [], triggers := [Trigger.After ["ghost"]], color := "" })
    (by decide)
    (Trigger.After ["ghost"]) (by decide) ["ghost"] rfl "ghost" (by decide) (by decide)
  rintro ⟨c, hc⟩
  obtain ⟨c', hc'⟩ := findCycle_complete (afterGraph flowGhost) (afterGraph_closed flowGhost) c hc
  rw [show findCycle (afterGraph flowGhost) = none by decide] at hc'
  cases hc'
/-! ### Equation lemmas for `handleCompleted` (one per branch of the
dispatch) -/

theorem handleCompleted_eq_pending (s : OrchState) (node : ResolvedNode) (code : Int)
    (hp : statusOf s.state node.id = Status.Pending) :
    handleCompleted s node code =
      { s with state := s.state.mark (s.state.graph.successors node.id) Status.Pending } := by
  unfold handleCompleted
  rw [if_neg (not_not_intro hp)]

theorem handleCompleted_eq_restart_new (s : OrchState) (node : ResolvedNode) (code : Int)
    (d : Rat) (hnp : statusOf s.state node.id ≠ Status.Pending)
    (hfr : firstRestartDelay node.triggers = some d)
    (hnw : statusOf s.state node.id ≠ Status.Waiting) :
    handleCompleted s node code =
      { s with
        state := (s.state.mark [node.id] Status.Waiting).mark
          (s.state.graph.successors node.id) Status.Pending
        scheduledTimers := s.scheduledTimers ++ [(s.nextTimer, d)]
        restartTimers := s.restartTimers ++ [s.nextTimer]
        handleBinding := some s.nextTimer
        nextTimer := s.nextTimer + 1 } := by
  unfold handleCompleted
  rw [if_pos hnp, hfr]
  dsimp only
  rw [if_pos hnw]
  rfl

theorem handleCompleted_eq_restart_waiting (s : OrchState) (node : ResolvedNode) (code : Int)
    (d : Rat) (hnp : statusOf s.state node.id ≠ Status.Pending)
    (hfr : firstRestartDelay node.triggers = some d)
    (hw : statusOf s.state node.id = Status.Waiting) :
    handleCompleted s node code =
      { s with state := s.state.mark (s.state.graph.successors node.id) Status.Pending } := by
  unfold handleCompleted
  rw [if_pos hnp, hfr]
  dsimp only
  rw [if_neg (not_not_intro hw)]

theorem handleCompleted_eq_success (s : OrchState) (node : ResolvedNode) (code : Int)
    (hnp : statusOf s.state node.id ≠ Status.Pending)
    (hfr : firstRestartDelay node.triggers = none) (hz : (code == 0) = true) :
    handleCompleted s node code =
      { s with
        state := (s.state.mark [node.id] Status.Succeeded).mark
          (s.state.graph.successors node.id) Status.Pending } := by
  unfold handleCompleted
  rw [if_pos hnp, hfr]
  dsimp only
  rw [hz]
  rfl

theorem handleCompleted_eq_failure (s : OrchState) (node : ResolvedNode) (code : Int)
    (hnp : statusOf s.state node.id ≠ Status.Pending)
    (hfr : firstRestartDelay node.triggers = none) (hz : (code == 0) = false) :
    handleCompleted s node code =
      { s with
        state := (s.state.mark [node.id] Status.Failed).mark
          (s.state.graph.successors node.id) Status.Pending } := by
  unfold handleCompleted
  rw [if_pos hnp, hfr]
  dsimp only
  rw [hz]
  rfl

/-! ### Characterization of the boolean termination predicate -/

theorem noMoreWorkPossibleB_iff (st : FlowState) :
    noMoreWorkPossibleB st = true ↔
      (∀ e ∈ st.flow.nodes, ∀ t ∈ e.2.triggers, t.isRepeating = false) ∧
        readyIds st = [] ∧
        ∀ e ∈ st.statuses, e.2 ≠ Status.Running ∧ e.2 ≠ Status.Starting := by
  unfold noMoreWorkPossibleB
  by_cases hrep : hasRepeatingTrigger st.flow = true
  · rw [if_pos hrep]
    constructor
    · intro h
      cases h
    · rintro ⟨hno, -, -⟩
      exfalso
      unfold hasRepeatingTrigger at hrep
      obtain ⟨e, he, ht⟩ := List.any_eq_true.mp hrep
      obtain ⟨t, ht', hrep'⟩ := List.any_eq_true.mp ht
      rw [hno e he t ht'] at hrep'
      cases hrep'
  · rw [if_neg hrep]
    rw [Bool.and_eq_true, Bool.and_eq_true]
    have hnorep : ∀ e ∈ st.flow.nodes, ∀ t ∈ e.2.triggers, t.isRepeating = false := by
      intro e he t ht
      cases hb : t.isRepeating
      · rfl
      · exfalso
        apply hrep
        unfold hasRepeatingTrigger
        exact List.any_eq_true.mpr ⟨e, he, List.any_eq_true.mpr ⟨t, ht, hb⟩⟩
    constructor
    · rintro ⟨hready, hrun, hstart⟩
      refine ⟨hnorep, List.isEmpty_iff.mp hready, ?_⟩
      intro e he
      constructor
      · intro hc
        have := (statusIds_isEmpty_iff st Status.Running).mp hrun e he
        rw [hc] at this
        simp at this
      · intro hc
        have := (statusIds_isEmpty_iff st Status.Starting).mp hstart e he
        rw [hc] at this
        simp at this
    · rintro ⟨-, hready, hstatus⟩
      refine ⟨List.isEmpty_iff.mpr hready, ?_, ?_⟩
      · refine (statusIds_isEmpty_iff st Status.Running).mpr fun e he => ?_
        exact beq_eq_false_iff_ne.mpr (hstatus e he).1
      · refine (statusIds_isEmpty_iff st Status.Starting).mpr fun e he => ?_
        exact beq_eq_false_iff_ne.mpr (hstatus e he).2

theorem handleMessage_not_quit (s : OrchState) (m : Message) (hm : m ≠ Message.Quit) :
    handleMessage s m =
      if noMoreWorkPossibleB (startReady (dispatchOne s m)).state then
        .error (if (startReady (dispatchOne s m)).state.all_succeeded then 0 else 1)
      else .ok (startReady (dispatchOne s m)) := by
  cases m
  case Quit => exact absurd rfl hm
  all_goals rfl

/-- Claim C1: the dispatch loop returns after a dispatch exactly when
`no_more_work_possible()` holds (no repeating trigger anywhere, no ready
node, nothing Running or Starting), the exit code being 0 iff every node
Succeeded; a `Quit` message returns 0 unconditionally. -/
theorem c1_event_loop_exit :
    (∀ st : FlowState, WellFormed st →
        st.no_more_work_possible = .ok (noMoreWorkPossibleB st) ∧
          (noMoreWorkPossibleB st = true ↔
            (∀ e ∈ st.flow.nodes, ∀ t ∈ e.2.triggers, t.isRepeating = false) ∧
              readyIds st = [] ∧
              ∀ e ∈ st.statuses, e.2 ≠ Status.Running ∧ e.2 ≠ Status.Starting) ∧
          (st.all_succeeded = true ↔ ∀ e ∈ st.statuses, e.2 = Status.Succeeded)) ∧
      ∀ (s : OrchState) (m : Message) (c : Int),
        handleMessage s m = .error c ↔
          ((m = Message.Quit ∧ c = 0) ∨
            (m ≠ Message.Quit ∧
              noMoreWorkPossibleB (startReady (dispatchOne s m)).state = true ∧
              c = if (startReady (dispatchOne s m)).state.all_succeeded then 0 else 1)) := by
  constructor
  · intro st hwf
    refine ⟨no_more_work_possible_eq_ok st hwf, noMoreWorkPossibleB_iff st, ?_⟩
    unfold FlowState.all_succeeded
    rw [List.all_eq_true]
    constructor
    · intro h e he
      exact beq_iff_eq.mp (h e he)
    · intro h e he
      exact beq_iff_eq.mpr (h e he)
  · intro s m c
    by_cases hq : m = Message.Quit
    · subst hq
      show Except.error 0 = Except.error c ↔ _
      constructor
      · intro h
        cases h
        exact Or.inl ⟨rfl, rfl⟩
      · rintro (⟨-, rfl⟩ | ⟨hne, -⟩)
        · rfl
        · exact absurd rfl hne
    · rw [handleMessage_not_quit s m hq]
      by_cases hn : noMoreWorkPossibleB (startReady (dispatchOne s m)).state = true
      · rw [if_pos hn]
        constructor
        · intro h
          cases h
          exact Or.inr ⟨hq, hn, rfl⟩
        · rintro (⟨hqq, -⟩ | ⟨-, -, rfl⟩)
          · exact absurd hqq hq
          · rfl
      · rw [if_neg hn]
        constructor
        · intro h
          cases h
        · rintro (⟨hqq, -⟩ | ⟨-, hn', -⟩)
          · exact absurd hqq hq
          · exact absurd hn' hn
def stDone : FlowState :=
  { graph := afterGraph flowLin, flow := flowLin
    statuses := [("a", Status.Succeeded), ("b", Status.Succeeded)] }

def orchDone : OrchState :=
  { state := stDone, executions := [], scheduledTimers := [], restartTimers := []
    nextTimer := 0, nodeBinding := none, handleBinding := none, inbox := [] }

theorem c1_event_loop_exit_witness :
    stDone.no_more_work_possible = .ok true ∧
      handleMessage orchDone Message.Heartbeat = .error 0 := by
  have h1 := (c1_event_loop_exit.1 stDone ⟨by decide, by decide⟩).1
  have h2 := (c1_event_loop_exit.2 orchDone Message.Heartbeat 0).mpr
    (Or.inr ⟨by decide, by decide, by decide⟩)
  refine ⟨?_, h2⟩
  rw [h1]
  decide

def nodeRa : ResolvedNode :=
  { id := "ra", target := { commands := "", args := [], envs := [], executable := "sh -eu" },
    args := [], envs := [], triggers := [Trigger.Restart 1], color := "" }

def nodeRb : ResolvedNode :=
  { id := "rb", target := { commands := "", args := [], envs := [], executable := "sh -eu" },
    args := [], envs := [], triggers := [Trigger.Restart 1], color := "" }

def flowTwoRestart : ResolvedFlow :=
  { nodes := [("ra", nodeRa), ("rb", nodeRb)], args := [], envs := [] }

/-- Run prefix for the two-restart-node flow: the initial
`start_ready_targets`, both `ExecutionStarted` dispatches, both child exits
(ra first, then rb), and both `ExecutionCompleted` dispatches. -/
def c2Events : List SysEvent :=
  [SysEvent.initialStart, SysEvent.dispatch, SysEvent.dispatch,
   SysEvent.complete "ra" 0, SysEvent.complete "rb" 0,
   SysEvent.dispatch, SysEvent.dispatch]

/-- Claim C2 is refuted by the code: the scheduled timer does not, on
firing, mark *its* node Pending and remove *its* handle, because
`waiting_to_pending` is a closure over the `handle_messages` loop locals
`node` and `handle`, which later dispatches and schedulings rebind.  In the
flow with two `Restart(delay=1)` nodes `ra` and `rb`, after `ra` completes
and then `rb` completes, both are Waiting, timer 0 (scheduled by `ra`'s
completion) and timer 1 (by `rb`'s) are outstanding, and the loop locals
hold `rb` and handle 1.  When timer 0 — the claim says it marks `ra`
Pending and removes handle 0 — fires first, it instead marks `rb` Pending,
leaves `ra` Waiting (forever: its timer is consumed), and removes handle 1,
leaving `ra`'s stale handle 0 in the tracking set. -/
theorem c2_restart_timer_late_binding :
    (((initSystem flowTwoRestart).bind fun s0 => runEvents s0 c2Events).map
          (fun s1 => (statusOf s1.orch.state "ra", statusOf s1.orch.state "rb"))
        = some (Status.Waiting, Status.Waiting) ∧
      ((initSystem flowTwoRestart).bind fun s0 => runEvents s0 c2Events).map
          (fun s1 => (s1.orch.scheduledTimers, s1.orch.restartTimers))
        = some ([(0, 1), (1, 1)], [0, 1]) ∧
      ((initSystem flowTwoRestart).bind fun s0 => runEvents s0 c2Events).map
          (fun s1 => (s1.orch.nodeBinding.map ResolvedNode.id, s1.orch.handleBinding))
        = some (some "rb", some 1)) ∧
    ((initSystem flowTwoRestart).bind fun s0 =>
          runEvents s0 (c2Events ++ [SysEvent.timerFire 0])).map
        (fun s2 => (statusOf s2.orch.state "ra", statusOf s2.orch.state "rb"))
      = some (Status.Waiting, Status.Pending) ∧
    ((initSystem flowTwoRestart).bind fun s0 =>
          runEvents s0 (c2Events ++ [SysEvent.timerFire 0])).map
        (fun s2 => (s2.orch.scheduledTimers, s2.orch.restartTimers))
      = some ([(1, 1)], [0]) := by
  decide

/-- Claim C5: every `ExecutionCompleted` dispatch marks all graph successors
of the completed node Pending, whatever the node's own status; when the
node's status is Pending the completion is otherwise ignored — the node's
own status, the timers, the executions map and every non-successor status
are unchanged. -/
theorem c5_children_marked_pending (s : OrchState) (node : ResolvedNode) (code : Int) :
    (∀ c ∈ s.state.graph.successors node.id,
        statusOf (handleCompleted s node code).state c = Status.Pending) ∧
      (statusOf s.state node.id = Status.Pending →
        statusOf (handleCompleted s node code).state node.id = Status.Pending ∧
          (handleCompleted s node code).restartTimers = s.restartTimers ∧
          (handleCompleted s node code).executions = s.executions ∧
          ∀ id, id ∉ s.state.graph.successors node.id →
            statusOf (handleCompleted s node code).state id = statusOf s.state id) := by
  constructor
  · intro c hc
    by_cases hp : statusOf s.state node.id = Status.Pending
    · rw [handleCompleted_eq_pending s node code hp]
      show statusOf (s.state.mark (s.state.graph.successors node.id) Status.Pending) c = _
      rw [statusOf_mark, if_pos hc]
    · cases hfr : firstRestartDelay node.triggers with
      | some d =>
        by_cases hw : statusOf s.state node.id = Status.Waiting
        · rw [handleCompleted_eq_restart_waiting s node code d hp hfr hw]
          show statusOf (s.state.mark (s.state.graph.successors node.id) Status.Pending) c = _
          rw [statusOf_mark, if_pos hc]
        · rw [handleCompleted_eq_restart_new s node code d hp hfr hw]
          show statusOf ((s.state.mark [node.id] Status.Waiting).mark
            (s.state.graph.successors node.id) Status.Pending) c = _
          rw [statusOf_mark, if_pos hc]
      | none =>
        cases hz : (code == 0) with
        | true =>
          rw [handleCompleted_eq_success s node code hp hfr hz]
          show statusOf ((s.state.mark [node.id] Status.Succeeded).mark
            (s.state.graph.successors node.id) Status.Pending) c = _
          rw [statusOf_mark, if_pos hc]
        | false =>
          rw [handleCompleted_eq_failure s node code hp hfr hz]
          show statusOf ((s.state.mark [node.id] Status.Failed).mark
            (s.state.graph.successors node.id) Status.Pending) c = _
          rw [statusOf_mark, if_pos hc]
  · intro hp
    rw [handleCompleted_eq_pending s node code hp]
    refine ⟨?_, rfl, rfl, ?_⟩
    · show statusOf (s.state.mark (s.state.graph.successors node.id) Status.Pending) node.id = _
      rw [statusOf_mark]
      by_cases h : node.id ∈ s.state.graph.successors node.id
      · rw [if_pos h]
      · rw [if_neg h]
        exact hp
    · intro id hid
      show statusOf (s.state.mark (s.state.graph.successors node.id) Status.Pending) id = _
      rw [statusOf_mark, if_neg hid]

def nodeA : ResolvedNode :=
  { id := "a", target := { commands := "", args := [], envs := [], executable := "sh -eu" },
    args := [], envs := [], triggers := [Trigger.Once], color := "" }

def orchLin : OrchState :=
  { state :=
      { graph := afterGraph flowLin, flow := flowLin
        statuses := [("a", Status.Pending), ("b", Status.Succeeded)] }
    executions := [("a", true)], scheduledTimers := [], restartTimers := []
    nextTimer := 0, nodeBinding := none, handleBinding := none, inbox := [] }

theorem c5_children_marked_pending_witness :
    statusOf (handleCompleted orchLin nodeA 0).state "b" = Status.Pending ∧
      statusOf (handleCompleted orchLin nodeA 0).state "a" = Status.Pending ∧
      (handleCompleted orchLin nodeA 0).restartTimers = [] := by
  have h := c5_children_marked_pending orchLin nodeA 0
  have h2 := h.2 (by decide)
  refine ⟨h.1 "b" (by decide), h2.1, ?_⟩
  rw [h2.2.1]
  rfl
/-! ### Status-change analysis for C6: which steps can set a status to
Running -/

theorem statusOf_mark_cases (st : FlowState) (ids : List String) (σ : Status) (id : String) :
    statusOf (st.mark ids σ) id = statusOf st id ∨ statusOf (st.mark ids σ) id = σ := by
  rw [statusOf_mark]
  by_cases h : id ∈ ids
  · right
    rw [if_pos h]
  · left
    rw [if_neg h]

theorem handleCompleted_status_cases (s : OrchState) (node : ResolvedNode) (code : Int)
    (id : String) :
    statusOf (handleCompleted s node code).state id = statusOf s.state id ∨
      statusOf (handleCompleted s node code).state id = Status.Pending ∨
      statusOf (handleCompleted s node code).state id = Status.Waiting ∨
      statusOf (handleCompleted s node code).state id = Status.Succeeded ∨
      statusOf (handleCompleted s node code).state id = Status.Failed := by
  by_cases hp : statusOf s.state node.id = Status.Pending
  · rw [handleCompleted_eq_pending s node code hp]
    rcases statusOf_mark_cases s.state (s.state.graph.successors node.id) Status.Pending id
      with h | h <;> tauto
  · cases hfr : firstRestartDelay node.triggers with
    | some d =>
      by_cases hw : statusOf s.state node.id = Status.Waiting
      · rw [handleCompleted_eq_restart_waiting s node code d hp hfr hw]
        rcases statusOf_mark_cases s.state (s.state.graph.successors node.id) Status.Pending id
          with h | h <;> tauto
      · rw [handleCompleted_eq_restart_new s node code d hp hfr hw]
        rcases statusOf_mark_cases (s.state.mark [node.id] Status.Waiting)
            (s.state.graph.successors node.id) Status.Pending id with h | h
        · rcases statusOf_mark_cases s.state [node.id] Status.Waiting id with h' | h' <;>
            (have hc := h.trans h'; tauto)
        · tauto
    | none =>
      cases hz : (code == 0) with
      | true =>
        rw [handleCompleted_eq_success s node code hp hfr hz]
        rcases statusOf_mark_cases (s.state.mark [node.id] Status.Succeeded)
            (s.state.graph.successors node.id) Status.Pending id with h | h
        · rcases statusOf_mark_cases s.state [node.id] Status.Succeeded id with h' | h' <;>
            (have hc := h.trans h'; tauto)
        · tauto
      | false =>
        rw [handleCompleted_eq_failure s node code hp hfr hz]
        rcases statusOf_mark_cases (s.state.mark [node.id] Status.Failed)
            (s.state.graph.successors node.id) Status.Pending id with h | h
        · rcases statusOf_mark_cases s.state [node.id] Status.Failed id with h' | h' <;>
            (have hc := h.trans h'; tauto)
        · tauto

theorem handleWatchChanged_status_cases (s : OrchState) (node : ResolvedNode) (id : String) :
    statusOf (handleWatchChanged s node).state id = statusOf s.state id ∨
      statusOf (handleWatchChanged s node).state id = Status.Pending := by
  unfold handleWatchChanged
  split
  · exact statusOf_mark_cases s.state [node.id] Status.Pending id
  · exact Or.inl rfl

theorem startNode_status_cases (s : OrchState) (x id : String) :
    statusOf (startNode s x).state id = statusOf s.state id ∨
      statusOf (startNode s x).state id = Status.Starting := by
  unfold startNode
  split
  · exact statusOf_mark_cases s.state [x] Status.Starting id
  · exact Or.inl rfl

theorem startReadyStep_status_cases (s : OrchState) (x id : String) :
    statusOf (startReadyStep s x).state id = statusOf s.state id ∨
      statusOf (startReadyStep s x).state id = Status.Starting := by
  unfold startReadyStep
  split
  · split
    · exact startNode_status_cases s x id
    · exact Or.inl rfl
  · exact startNode_status_cases s x id

theorem startReady_status_cases (s : OrchState) (id : String) :
    statusOf (startReady s).state id = statusOf s.state id ∨
      statusOf (startReady s).state id = Status.Starting := by
  unfold startReady
  generalize readyIds s.state = ids
  induction ids generalizing s with
  | nil => exact Or.inl rfl
  | cons x rest ih =>
    rw [List.foldl_cons]
    rcases ih (startReadyStep s x) with h | h
    · rcases startReadyStep_status_cases s x id with h' | h'
      · exact Or.inl (h.trans h')
      · exact Or.inr (h.trans h')
    · exact Or.inr h

theorem fireCallback_status_cases (s : OrchState) (id : String) :
    statusOf (fireCallback s).state id = statusOf s.state id ∨
      statusOf (fireCallback s).state id = Status.Pending := by
  obtain ⟨st, ex, sch, rt, nt, nb, hb, ib⟩ := s
  unfold fireCallback
  cases nb with
  | none => exact Or.inl rfl
  | some node =>
    dsimp only
    by_cases hw : statusOf st node.id = Status.Waiting
    · rw [if_pos hw]
      cases hb with
      | none => exact statusOf_mark_cases st [node.id] Status.Pending id
      | some h => exact statusOf_mark_cases st [node.id] Status.Pending id
    · rw [if_neg hw]
      cases hb with
      | none => exact Or.inl rfl
      | some h => exact Or.inl rfl

theorem fireTimer_status_cases (s : OrchState) (tid : Nat) (id : String) :
    statusOf (fireTimer s tid).state id = statusOf s.state id ∨
      statusOf (fireTimer s tid).state id = Status.Pending := by
  unfold fireTimer
  exact fireCallback_status_cases
    { s with scheduledTimers := s.scheduledTimers.filter fun t => t.1 != tid } id

/-- Per-message status analysis of the dispatch: a status becomes Running
only through an `ExecutionStarted` message for that node. -/
theorem dispatchOne_status_cases (s1 : OrchState) (m : Message) (id : String) :
    statusOf (dispatchOne s1 m).state id = statusOf s1.state id ∨
      (∃ node, m = Message.ExecutionStarted node ∧ node.id = id ∧
        statusOf (dispatchOne s1 m).state id = Status.Running) ∨
      statusOf (dispatchOne s1 m).state id = Status.Pending ∨
      statusOf (dispatchOne s1 m).state id = Status.Waiting ∨
      statusOf (dispatchOne s1 m).state id = Status.Succeeded ∨
      statusOf (dispatchOne s1 m).state id = Status.Failed := by
  cases m with
  | ExecutionStarted node =>
    show statusOf (handleStarted s1 node).state id = _ ∨ _
    rcases statusOf_mark_cases s1.state [node.id] Status.Running id with h | h
    · exact Or.inl h
    · by_cases hid : id ∈ [node.id]
      · have hnid : node.id = id := by
          have := List.mem_singleton.mp hid
          exact this.symm
        exact Or.inr (Or.inl ⟨node, rfl, hnid, h⟩)
      · refine Or.inl ?_
        show statusOf (FlowState.mark s1.state [node.id] Status.Running) id = _
        rw [statusOf_mark, if_neg hid]
  | ExecutionCompleted node code =>
    have hd : dispatchOne s1 (Message.ExecutionCompleted node code)
        = handleCompleted { s1 with nodeBinding := some node } node code := rfl
    have hst : statusOf ({ s1 with nodeBinding := some node } : OrchState).state id
        = statusOf s1.state id := rfl
    rw [hd, ← hst]
    have h := handleCompleted_status_cases { s1 with nodeBinding := some node } node code id
    rcases h with h | h | h | h | h <;> tauto
  | WatchPathChanged node =>
    have hd : dispatchOne s1 (Message.WatchPathChanged node)
        = handleWatchChanged { s1 with nodeBinding := some node } node := rfl
    have hst : statusOf ({ s1 with nodeBinding := some node } : OrchState).state id
        = statusOf s1.state id := rfl
    rw [hd, ← hst]
    have h := handleWatchChanged_status_cases { s1 with nodeBinding := some node } node id
    rcases h with h | h <;> tauto
  | ExecutionOutput node text => exact Or.inl rfl
  | Heartbeat => exact Or.inl rfl
  | Quit => exact Or.inl rfl
  | Debug text => exact Or.inl rfl
theorem handleMessage_ok_inv (s : OrchState) (m : Message) (o : OrchState)
    (h : handleMessage s m = .ok o) : o = startReady (dispatchOne s m) := by
  cases m
  case Quit => cases h
  all_goals
    rw [handleMessage_not_quit s _ (fun hc => Message.noConfusion hc)] at h
    split at h
    · cases h
    · cases h
      rfl
/-- Claim C6, amended: a node's status becomes Running only when an
`ExecutionStarted` message for that node is dispatched from the head of the
inbox; the dispatch marks Running regardless of the prior status, so the
prior status is whatever the message found — normally Starting, but Pending
is possible when a `WatchPathChanged` invalidated the node while its
execution was live (the interleaving refuting I1 as stated). -/
theorem c6_running_only_via_execution_started (s : SysState) (e : SysEvent) (s' : SysState)
    (hstep : sysStep s e = some s') (id : String)
    (hbefore : statusOf s.orch.state id ≠ Status.Running)
    (hafter : statusOf s'.orch.state id = Status.Running) :
    e = SysEvent.dispatch ∧
      ∃ node rest, s.orch.inbox = Message.ExecutionStarted node :: rest ∧ node.id = id := by
  unfold sysStep at hstep
  by_cases hres : s.result.isSome = true
  · rw [if_pos hres] at hstep
    cases hstep
  · rw [if_neg hres] at hstep
    cases e with
    | initialStart =>
      exfalso
      dsimp only at hstep
      by_cases hst : s.started = true
      · rw [if_pos hst] at hstep
        cases hstep
      · rw [if_neg hst] at hstep
        cases hstep
        rcases startReady_status_cases s.orch id with h | h
        · exact hbefore (h.symm.trans hafter)
        · exact Status.noConfusion (h.symm.trans hafter)
    | dispatch =>
      dsimp only at hstep
      by_cases hst : s.started = true
      · rw [if_pos hst] at hstep
        cases hinbox : s.orch.inbox with
        | nil =>
          rw [hinbox] at hstep
          cases hstep
        | cons m rest =>
          rw [hinbox] at hstep
          dsimp only at hstep
          cases hm : handleMessage { s.orch with inbox := rest } m with
          | error c =>
            rw [hm] at hstep
            dsimp only at hstep
            cases hstep
            exact absurd hafter hbefore
          | ok o =>
            rw [hm] at hstep
            dsimp only at hstep
            cases hstep
            have ho := handleMessage_ok_inv _ _ _ hm
            subst ho
            rcases startReady_status_cases (dispatchOne { s.orch with inbox := rest } m) id
              with h1 | h1
            · have hafter' :
                  statusOf (dispatchOne { s.orch with inbox := rest } m).state id
                    = Status.Running :=
                h1.symm.trans hafter
              rcases dispatchOne_status_cases { s.orch with inbox := rest } m id
                with h2 | ⟨node, rfl, hnid, -⟩ | h2 | h2 | h2 | h2
              · exact absurd (h2.symm.trans hafter') hbefore
              · exact ⟨rfl, node, rest, rfl, hnid⟩
              · exact Status.noConfusion (h2.symm.trans hafter')
              · exact Status.noConfusion (h2.symm.trans hafter')
              · exact Status.noConfusion (h2.symm.trans hafter')
              · exact Status.noConfusion (h2.symm.trans hafter')
            · exact Status.noConfusion (h1.symm.trans hafter)
      · rw [if_neg hst] at hstep
        cases hstep
    | complete cid code =>
      exfalso
      dsimp only at hstep
      cases hl1 : List.lookup cid s.orch.executions with
      | none =>
        rw [hl1] at hstep
        cases hstep
      | some b =>
        cases b with
        | false =>
          rw [hl1] at hstep
          dsimp only at hstep
          cases hl2 : List.lookup cid s.orch.state.flow.nodes with
          | none =>
            rw [hl2] at hstep
            cases hstep
          | some node =>
            rw [hl2] at hstep
            dsimp only at hstep
            cases hstep
            exact absurd hafter hbefore
        | true =>
          rw [hl1] at hstep
          cases hstep
    | watchFire wid =>
      exfalso
      dsimp only at hstep
      cases hl : List.lookup wid s.orch.state.flow.nodes with
      | none =>
        rw [hl] at hstep
        cases hstep
      | some node =>
        rw [hl] at hstep
        dsimp only at hstep
        by_cases hw : node.triggers.any Trigger.isWatch = true
        · rw [if_pos hw] at hstep
          cases hstep
          exact absurd hafter hbefore
        · rw [if_neg hw] at hstep
          cases hstep
    | timerFire tid =>
      exfalso
      dsimp only at hstep
      by_cases ht : s.orch.scheduledTimers.any (fun t => t.1 == tid) = true
      · rw [if_pos ht] at hstep
        cases hstep
        rcases fireTimer_status_cases s.orch tid id with h | h
        · exact hbefore (h.symm.trans hafter)
        · exact Status.noConfusion (h.symm.trans hafter)
      · rw [if_neg ht] at hstep
        cases hstep
    | sigint =>
      exfalso
      dsimp only at hstep
      by_cases hst : s.started = true
      · rw [if_pos hst] at hstep
        cases hstep
        exact absurd hafter hbefore
      · rw [if_neg hst] at hstep
        cases hstep
    | heartbeatTick =>
      exfalso
      dsimp only at hstep
      cases hstep
      exact absurd hafter hbefore
/-! ### The C6 interleaving: a watched node, invalidated while its execution
is live, jumps Pending to Running when the pending `ExecutionStarted` is
dispatched. -/

def nodeW : ResolvedNode :=
  { id := "w", target := { commands := "", args := [], envs := [], executable := "sh -eu" },
    args := [], envs := [], triggers := [Trigger.Watch ["p"]], color := "" }

def flowWatch : ResolvedFlow := { nodes := [("w", nodeW)], args := [], envs := [] }

def c6s0 : SysState :=
  { orch :=
      { state :=
          { graph := { nodes := ["w"], edges := [] }, flow := flowWatch
            statuses := [("w", Status.Pending)] }
        executions := [], scheduledTimers := [], restartTimers := [], nextTimer := 0
        nodeBinding := none, handleBinding := none, inbox := [] }
    started := false, result := none }

/-- After: watcher batch enqueued, initial `start_ready` spawned the
execution (enqueuing `ExecutionStarted`), and the `WatchPathChanged` was
dispatched — the node is back to Pending while `ExecutionStarted` is still
queued. -/
def c6s1 : SysState :=
  { orch :=
      { state :=
          { graph := { nodes := ["w"], edges := [] }, flow := flowWatch
            statuses := [("w", Status.Pending)] }
        executions := [("w", false)], scheduledTimers := [], restartTimers := []
        nextTimer := 0, nodeBinding := some nodeW, handleBinding := none
        inbox := [Message.ExecutionStarted nodeW] }
    started := true, result := none }

def c6s2 : SysState :=
  { orch :=
      { state :=
          { graph := { nodes := ["w"], edges := [] }, flow := flowWatch
            statuses := [("w", Status.Running)] }
        executions := [("w", false)], scheduledTimers := [], restartTimers := []
        nextTimer := 0, nodeBinding := some nodeW, handleBinding := none, inbox := [] }
    started := true, result := none }

/-- Counterexample for C6 as stated: in a reachable run of the single
watched node `w` — watcher fires before the initial `start_ready`, the
`WatchPathChanged` is dispatched while the execution is live (marking `w`
Pending), then the queued `ExecutionStarted` is dispatched — `w` moves
directly from Pending to Running. -/
theorem c6_counterexample : ¬NoPendingToRunning flowWatch := by
  intro h
  have h1 : initSystem flowWatch = some c6s0 := by decide
  have h2 : runEvents c6s0
      [SysEvent.watchFire "w", SysEvent.initialStart, SysEvent.dispatch] = some c6s1 := by
    decide
  have h3 : sysStep c6s1 SysEvent.dispatch = some c6s2 := by decide
  have h4 : statusOf c6s1.orch.state "w" = Status.Pending := by decide
  have h5 : statusOf c6s2.orch.state "w" = Status.Running := by decide
  exact h c6s0 [SysEvent.watchFire "w", SysEvent.initialStart, SysEvent.dispatch]
    c6s1 SysEvent.dispatch c6s2 "w" h1 h2 h3 ⟨h4, h5⟩

/-- Witness for the amended C6 at the counterexample's step. -/
theorem c6_running_only_via_execution_started_witness :
    SysEvent.dispatch = SysEvent.dispatch ∧
      ∃ node rest, c6s1.orch.inbox = Message.ExecutionStarted node :: rest ∧
        node.id = "w" :=
  c6_running_only_via_execution_started c6s1 SysEvent.dispatch c6s2
    (by decide) "w" (by decide) (by decide)
end Synthesize
